import Mathlib

/-!
Verification of the `pbt-simple` build tool (package `sbt`).

The development shallowly embeds the code of `src/sbt/commands/install.py`,
`src/sbt/package/graph.py` and `src/sbt/__main__.py`.  The version/specifier
model (`sbt/package/discovery.py`) and the registry client
(`sbt/registry/pypi.py`) are not part of the provided sources; where a claim
needs them they are either kept abstract (a function parameter, matching the
call through the module boundary) or modelled from the specification, as
documented on each definition.
-/

deriving instance DecidableEq for Except

namespace SBT

/-- One dependency requirement entry, from `sbt/package/package.py` as used by
`install.py` (positional constructor order `version_spec, constraint,
version_spec_field, origin_spec`, cf. spec section 3). -/
structure DepConstraint where
  version_spec : String
  constraint : Option String
  version_spec_field : Option String
  origin_spec : Option (List (String × String))
deriving DecidableEq, Repr

/-- `DepConstraints` is an ordered sequence of `DepConstraint`. -/
abbrev DepConstraints := List DepConstraint

/-- A local package (spec section 3 / `sbt/package/package.py`): name, version,
`include` list and the ordered mapping from dependency name to constraints. -/
structure Package where
  name : String
  version : String
  includes : List String
  dependencies : List (String × DepConstraints)
deriving DecidableEq, Repr

/-- The key used by `find_common_specs` for a constraint entry:
Python `x.constraint or ""` maps `None` to `""` (and leaves `""` as `""`). -/
def constraintKey (x : DepConstraint) : String :=
  x.constraint.getD ""

/-- Insert into an insertion-ordered dict (association list): an existing key
keeps its position and has its value overwritten, a new key is appended.
This is the behaviour of the Python dict comprehension in
`find_common_specs`. -/
def dictInsert (m : List (String × DepConstraint)) (k : String) (v : DepConstraint) :
    List (String × DepConstraint) :=
  match m with
  | [] => [(k, v)]
  | (k', v') :: rest =>
      if k' = k then (k', v) :: rest else (k', v') :: dictInsert rest k v

/-- `{x.constraint or "": x for x in depspecs}` from `find_common_specs`. -/
def buildSpecMap (ds : DepConstraints) : List (String × DepConstraint) :=
  ds.foldl (fun m x => dictInsert m (constraintKey x) x) []

/-- The three failure modes of `find_common_specs`
(`IncompatibleDependencyError` with the three distinct messages). -/
inductive IncompatibleDependencyError where
  | duplicatedSpecs
  | differentNumberOfSpecs
  | incompatibleSpecs
deriving DecidableEq, Repr

/-- Association-list lookup (Python `anotherspecs[constraint]`). -/
def alistLookup (m : List (String × DepConstraint)) (k : String) : Option DepConstraint :=
  match m with
  | [] => none
  | (k', v) :: rest => if k' = k then some v else alistLookup rest k

/-- The `for constraint, spec in specs.items()` loop of `find_common_specs`
(install.py lines 302-324), accumulating `newspecs`: look the label up on
the other side, intersect the two version-range texts through `si`
(see `find_common_specs` for the role of `si`), and emit the merged entry
keeping the first side's label (as normalised by the dict key), spec-field
name and origin metadata. -/
def mergeLoop (si : String → String → Option String)
    (anotherspecs : List (String × DepConstraint)) :
    List (String × DepConstraint) → DepConstraints →
    Except IncompatibleDependencyError DepConstraints
  | [], acc => .ok acc
  | (constraint, spec) :: rest, acc =>
      match alistLookup anotherspecs constraint with
      | none => .error .incompatibleSpecs
      | some anotherspec =>
          match si spec.version_spec anotherspec.version_spec with
          | none => .error .incompatibleSpecs
          | some t =>
              mergeLoop si anotherspecs rest
                (acc ++ [DepConstraint.mk t (some constraint)
                  spec.version_spec_field spec.origin_spec])

/-- `find_common_specs` from `src/sbt/commands/install.py` (lines 285-325).

The call `parse_version_spec`/`intersect`/`to_pep508_string` goes through
`sbt/package/discovery.py`, which is not among the provided sources; it is
abstracted as the parameter `si`, where `si a b = none` means the
intersection of the two rendered version ranges is contradictory (the
`ValueError` branch of the source) and `si a b = some t` means the
intersection is satisfiable and renders as `t`. -/
def find_common_specs (si : String → String → Option String)
    (depspecs another_depspecs : DepConstraints) :
    Except IncompatibleDependencyError DepConstraints :=
  let specs := buildSpecMap depspecs
  let anotherspecs := buildSpecMap another_depspecs
  if ¬ (specs.length = depspecs.length ∧ anotherspecs.length = another_depspecs.length) then
    .error .duplicatedSpecs
  else if ¬ ((specs.map Prod.fst).toFinset = (anotherspecs.map Prod.fst).toFinset) then
    .error .differentNumberOfSpecs
  else
    mergeLoop si anotherspecs specs []

/-- The unique entry of a constraint list carrying a given label
(absent labels count as the empty-string label). -/
def labelLookup (d : DepConstraints) (k : String) : Option DepConstraint :=
  d.find? (fun y => constraintKey y == k)

/-- The merged entry the specification promises for one label: the first
side's label (normalised through the dict key), spec-field name and origin
metadata, with the intersected re-rendered version-range text.  The
fallback branches are never taken when `find_common_specs` succeeds. -/
def mergeEntry (si : String → String → Option String) (d2 : DepConstraints)
    (x : DepConstraint) : DepConstraint :=
  let k := constraintKey x
  let t :=
    match labelLookup d2 k with
    | some y => (si x.version_spec y.version_spec).getD x.version_spec
    | none => x.version_spec
  ⟨t, some k, x.version_spec_field, x.origin_spec⟩

/-- Replace an absent (`None`) constraint label by the empty-string
label, leaving everything else unchanged. -/
def normalizeLabel (x : DepConstraint) : DepConstraint :=
  { x with constraint := some (constraintKey x) }

/-! ## The `install` command: third-party requirement aggregation
(`install`, src/sbt/commands/install.py lines 79-128). -/

/-- One entry of the running table `thirdparty_pkgs`: the (insertion-ordered)
set of local packages requiring the dependency, and the merged constraints. -/
structure AggEntry where
  requiredBy : List String
  specs : DepConstraints
deriving DecidableEq, Repr

/-- The mutable aggregation state of the `install` command:
`thirdparty_pkgs` (an insertion-ordered dict) and `invalid_thirdparty_pkgs`. -/
structure AggState where
  thirdparty : List (String × AggEntry)
  invalid : List String
deriving DecidableEq, Repr

/-- Lookup in the `thirdparty_pkgs` dict. -/
def aggLookup (m : List (String × AggEntry)) (k : String) : Option AggEntry :=
  match m with
  | [] => none
  | (k', v) :: rest => if k' = k then some v else aggLookup rest k

/-- Overwrite the value of an existing key of `thirdparty_pkgs` in place
(Python `thirdparty_pkgs[depname] = ...` on a present key). -/
def aggUpdate (m : List (String × AggEntry)) (k : String) (v : AggEntry) :
    List (String × AggEntry) :=
  match m with
  | [] => []
  | (k', v') :: rest => if k' = k then (k', v) :: rest else (k', v') :: aggUpdate rest k v

/-- `set.add` on the requiring-package set (insertion-ordered). -/
def setAdd (s : List String) (x : String) : List String :=
  if x ∈ s then s else s ++ [x]

/-- One iteration of the inner aggregation loop of `install` (lines 82-108):
process dependency `dep` declared by local package `pkgName`.  `.error ()`
models the re-raised `IncompatibleDependencyError` that aborts the command
when `ignore_invalid_dependency` is not set. -/
def aggStep (si : String → String → Option String) (localNames : List String)
    (ignore_invalid_dependency : Bool) (st : AggState) (pkgName : String)
    (dep : String × DepConstraints) : Except Unit AggState :=
  if dep.1 ∈ localNames ∨ dep.1 ∈ st.invalid then .ok st
  else
    match aggLookup st.thirdparty dep.1 with
    | none =>
        .ok { st with thirdparty := st.thirdparty ++ [(dep.1, ⟨[pkgName], dep.2⟩)] }
    | some entry =>
        -- `thirdparty_pkgs[depname][0].add(pkg.name)` mutates the set in place,
        -- before `find_common_specs` runs, so it persists even on failure.
        let rb := setAdd entry.requiredBy pkgName
        match find_common_specs si entry.specs dep.2 with
        | .ok merged =>
            .ok { st with thirdparty := aggUpdate st.thirdparty dep.1 ⟨rb, merged⟩ }
        | .error _ =>
            let st' := { st with thirdparty := aggUpdate st.thirdparty dep.1 ⟨rb, entry.specs⟩ }
            if ignore_invalid_dependency then
              .ok { st' with invalid := st'.invalid ++ [dep.1] }
            else
              .error ()

/-- The flattened iteration order of the two nested aggregation loops:
every `(pkg.name, (depname, depspecs))` pair in package order. -/
def depPairs (pkgs : List Package) : List (String × (String × DepConstraints)) :=
  pkgs.flatMap (fun p => p.dependencies.map (fun d => (p.name, d)))

/-- Observable events of one `install` invocation. -/
inductive Event where
  | aggDep (pkgName depName : String)
  | installTarget (name : String)
  | installSibling (name : String)
deriving DecidableEq, Repr

/-- Whether an event is an install (an environment mutation). -/
def Event.isInstall : Event → Bool
  | .aggDep _ _ => false
  | .installTarget _ => true
  | .installSibling _ => true

/-- Run the aggregation loop over the remaining pairs, collecting one
`aggDep` event per processed dependency and stopping at a fatal conflict. -/
def aggRun (si : String → String → Option String) (localNames : List String)
    (tol : Bool) : List (String × (String × DepConstraints)) → AggState →
    List Event × Except Unit AggState
  | [], st => ([], .ok st)
  | (pn, dep) :: rest, st =>
      match aggStep si localNames tol st pn dep with
      | .error e => ([Event.aggDep pn dep.1], .error e)
      | .ok st' =>
          let r := aggRun si localNames tol rest st'
          (Event.aggDep pn dep.1 :: r.1, r.2)

/-- The initial aggregation state (both containers empty). -/
def aggInit : AggState := ⟨[], []⟩

/-- The whole aggregation step of `install` (step 1, lines 79-108). -/
def aggregate (si : String → String → Option String) (pkgs : List Package)
    (tol : Bool) : Except Unit AggState :=
  (aggRun si (pkgs.map Package.name) tol (depPairs pkgs) aggInit).2

/-- The dependency dict the `install` command passes to
`install_pkg_dependencies` (line 113):
`{depname: depspecs for depname, (_, depspecs) in thirdparty_pkgs.items()}`. -/
def mergedDepsArg (st : AggState) : List (String × DepConstraints) :=
  st.thirdparty.map (fun e => (e.1, e.2.specs))

/-- The `install` command (src/sbt/commands/install.py lines 60-128), modelled
up to the event trace and the merged dependency dict: aggregation, then
`install_pkg_dependencies` on the target, then `install_bare_pkg` on each
other local package in discovery order.  `.error` is the fatal
`IncompatibleDependencyError` abort. -/
def install (si : String → String → Option String) (pkgs : List Package)
    (target : String) (ignore_invalid_dependency : Bool) :
    List Event × Except Unit (List (String × DepConstraints)) :=
  let r := aggRun si (pkgs.map Package.name) ignore_invalid_dependency
    (depPairs pkgs) aggInit
  match r.2 with
  | .error e => (r.1, .error e)
  | .ok st =>
      let deps := mergedDepsArg st
      let siblings := (pkgs.filter (fun p => p.name ≠ target)).map Package.name
      (r.1 ++ [Event.installTarget target] ++ siblings.map Event.installSibling,
       .ok deps)

/-! ## Generated manifests (`install_bare_pkg` lines 138-157,
`install_pkg_dependencies` lines 168-193). -/

/-- The `tool.poetry` table of a generated manifest. -/
structure PoetryTool where
  name : String
  version : String
  description : String
  authors : List String
  packages : Option (List String)
deriving DecidableEq, Repr

/-- The `tool.poetry` table written by `install_bare_pkg` (lines 141-147):
the explicit `packages` entry is added iff
`sum(int(x != pkg.name) for x in pkg.include) > 0`. -/
def install_bare_pkg_tool (pkg : Package) : PoetryTool :=
  { name := pkg.name, version := pkg.version, description := "", authors := [],
    packages :=
      if 0 < pkg.includes.countP (fun x => x ≠ pkg.name) then some pkg.includes
      else none }

/-- The `tool.poetry` table written by `install_pkg_dependencies`
(lines 171-177); the same condition guards the `packages` entry. -/
def install_pkg_dependencies_tool (pkg : Package) : PoetryTool :=
  { name := pkg.name, version := pkg.version, description := "", authors := [],
    packages :=
      if 0 < pkg.includes.countP (fun x => x ≠ pkg.name) then some pkg.includes
      else none }

/-! ## The file-swap protocol of `install_pkg_dependencies`
(lines 168-230). -/

/-- The package-local and cache-local files touched by
`install_pkg_dependencies`; `none` means the file does not exist. -/
structure FS where
  pkgPyproject : Option String
  pkgLock : Option String
  cacheModifiedToml : Option String
  cacheOriginToml : Option String
  cacheOriginLock : Option String
  cacheModifiedLock : Option String
deriving DecidableEq, Repr

/-- `install_pkg_dependencies` (lines 168-230) as a transformer of `FS`.
`tool` abstracts `install_poetry_package` (the external toolchain run, which
may rewrite the active manifest/lock in the package directory): it maps the
active `(pyproject.toml, poetry.lock)` contents to their post-run contents
plus `true` for success / `false` for a raised error.  The `finally` block
(lines 216-230) runs in both cases.  The result is `none` only when the
package directory has no real `pyproject.toml` (then the first `os.rename`
of the `try` block raises and the `finally` restore raises as well, a state
outside the protocol). -/
def install_pkg_dependencies_fs
    (tool : Option String → Option String → Option String × Option String × Bool)
    (modifiedToml : String) (fs : FS) : Option (FS × Bool) :=
  -- lines 168-193: write the merged manifest into the cache directory
  let fs1 : FS := { fs with cacheModifiedToml := some modifiedToml }
  match fs1.pkgPyproject with
  | none => none
  | some m =>
    -- line 196: os.rename(pkg/pyproject.toml, cache/pyproject.origin.toml)
    let fs2 : FS := { fs1 with cacheOriginToml := some m, pkgPyproject := none }
    -- lines 200-204: stage the real lock aside if it exists
    let fs3 : FS :=
      match fs2.pkgLock with
      | some l => { fs2 with cacheOriginLock := some l, pkgLock := none }
      | none => fs2
    -- lines 205-208: copy the modified manifest into place
    let fs4 : FS := { fs3 with pkgPyproject := some modifiedToml }
    -- lines 209-213: copy the cached modified lock into place if present
    let fs5 : FS :=
      match fs4.cacheModifiedLock with
      | some l => { fs4 with pkgLock := some l }
      | none => fs4
    -- line 215: run the toolchain on the active files
    let res := tool fs5.pkgPyproject fs5.pkgLock
    let fs6 : FS := { fs5 with pkgPyproject := res.1, pkgLock := res.2.1 }
    -- lines 217-220: restore the real manifest
    let fs7 : FS := { fs6 with pkgPyproject := fs6.cacheOriginToml, cacheOriginToml := none }
    -- lines 221-225: rotate the now-active lock into the cache as "modified"
    let fs8 : FS :=
      match fs7.pkgLock with
      | some l => { fs7 with cacheModifiedLock := some l, pkgLock := none }
      | none => fs7
    -- lines 226-230: restore the real lock if one had been staged aside
    let fs9 : FS :=
      match fs8.cacheOriginLock with
      | some l => { fs8 with pkgLock := some l, cacheOriginLock := none }
      | none => fs8
    some (fs9, res.2.2)

/-! ## The dependency graph (`src/sbt/package/graph.py`). -/

/-- `ThirdPartyPackage` (graph.py lines 13-18): a non-local dependency node;
`invert_dependencies` maps each requiring local package to its constraints. -/
structure ThirdPartyPackage where
  name : String
  invert_dependencies : List (String × DepConstraints)
deriving DecidableEq, Repr

/-- A node payload of the dependency graph: a local `Package` or a
`ThirdPartyPackage` (the `isinstance` distinction used by the queries). -/
inductive PkgNode where
  | pkg (p : Package)
  | third (t : ThirdPartyPackage)
deriving DecidableEq, Repr

/-- `isinstance(pkg, ThirdPartyPackage)`. -/
def PkgNode.isThird : PkgNode → Bool
  | .pkg _ => false
  | .third _ => true

/-- `isinstance(pkg, Package)`. -/
def PkgNode.isLocal : PkgNode → Bool
  | .pkg _ => true
  | .third _ => false

/-- The directed graph `nx.DiGraph` as used by `PkgGraph`: node table and
edge list, both in insertion order (networkx iterates adjacency in
insertion order). -/
structure PkgGraph where
  nodes : List (String × PkgNode)
  edges : List (String × String)
deriving DecidableEq, Repr

/-- Node lookup (`g.nodes[name]["pkg"]`). -/
def nodeLookup (m : List (String × PkgNode)) (k : String) : Option PkgNode :=
  match m with
  | [] => none
  | (k', v) :: rest => if k' = k then some v else nodeLookup rest k

/-- Overwrite the payload of an existing node key in place. -/
def nodeUpdate (m : List (String × PkgNode)) (k : String) (v : PkgNode) :
    List (String × PkgNode) :=
  match m with
  | [] => []
  | (k', v') :: rest => if k' = k then (k', v) :: rest else (k', v') :: nodeUpdate rest k v

/-- Insert-or-overwrite on `invert_dependencies`
(`dep_pkg.invert_dependencies[pkg.name] = specs`). -/
def invInsert (m : List (String × DepConstraints)) (k : String) (v : DepConstraints) :
    List (String × DepConstraints) :=
  match m with
  | [] => [(k, v)]
  | (k', v') :: rest => if k' = k then (k', v) :: rest else (k', v') :: invInsert rest k v

/-- The node names of a graph, in insertion order. -/
def nodeNames (g : PkgGraph) : List String := g.nodes.map Prod.fst

/-- One iteration of the edge-adding loop of `PkgGraph.from_pkgs`
(graph.py lines 42-53): process dependency `dep` of package `pkgName`. -/
def addDep (g : PkgGraph) (pkgName : String) (dep : String × DepConstraints) :
    PkgGraph :=
  let g1 :=
    match nodeLookup g.nodes dep.1 with
    | none =>
        { g with nodes := g.nodes ++ [(dep.1, PkgNode.third ⟨dep.1, [(pkgName, dep.2)]⟩)] }
    | some (.third t) =>
        let t' : ThirdPartyPackage :=
          { t with invert_dependencies := invInsert t.invert_dependencies pkgName dep.2 }
        { g with nodes := nodeUpdate g.nodes dep.1 (.third t') }
    | some (.pkg _) => g
  { g1 with edges := g1.edges ++ [(pkgName, dep.1)] }

/-- The graph built by `PkgGraph.from_pkgs` before the cycle check
(graph.py lines 37-53): one node per local package, then the edge loop. -/
def buildGraph (pkgs : List Package) : PkgGraph :=
  let g0 : PkgGraph := ⟨pkgs.map (fun p => (p.name, .pkg p)), []⟩
  pkgs.foldl (fun g p => p.dependencies.foldl (fun g' d => addDep g' p.name d) g) g0

/-- The edge relation of a graph. -/
def EdgeRel (g : PkgGraph) (a b : String) : Prop := (a, b) ∈ g.edges

instance (g : PkgGraph) (a b : String) : Decidable (EdgeRel g a b) := by
  unfold EdgeRel; infer_instance

/-- The successors of a node, in adjacency insertion order (`G[v]`). -/
def succsB (g : PkgGraph) (v : String) : List String :=
  g.edges.filterMap (fun e => if e.1 = v then some e.2 else none)

/-- The finite universe any reachability computation stays inside:
node names plus edge targets. -/
def gUniv (g : PkgGraph) : Finset String :=
  (nodeNames g).toFinset ∪ (g.edges.map Prod.snd).toFinset

/-- One expansion step of the reachable set: keep the set and add every
successor of an element. -/
def stepSet (g : PkgGraph) (s : Finset String) : Finset String :=
  s ∪ s.biUnion (fun v => (succsB g v).toFinset)

/-- `n`-fold expansion of the reachable set. -/
def reachIter (g : PkgGraph) (n : Nat) (s : Finset String) : Finset String :=
  (stepSet g)^[n] s

/-- Whether some nonempty walk leads from `v` back to `v`
(the fixpoint of the expansion starting from the successors of `v`). -/
def cycleAtB (g : PkgGraph) (v : String) : Bool :=
  decide (v ∈ reachIter g (gUniv g).card ((succsB g v).toFinset))

/-- Model of `nx.find_cycle` succeeding (graph.py lines 55-59): the graph
has a directed cycle.  A cycle vertex necessarily has an outgoing edge, so
testing all edge sources is exhaustive. -/
def hasCycleB (g : PkgGraph) : Bool :=
  (g.edges.map Prod.fst).any (fun v => cycleAtB g v)

/-- `PkgGraph.from_pkgs` (graph.py lines 30-61): build the graph, then fail
with the `ValueError` about cyclic dependencies iff `nx.find_cycle` finds a
cycle. -/
def from_pkgs (pkgs : List Package) : Except String PkgGraph :=
  let g := buildGraph pkgs
  if hasCycleB g then .error "Found cyclic dependencies" else .ok g

/-- The dependency-declaration relation of a workspace: local package `a`
declares a dependency on name `b`. -/
def DeclaredDep (pkgs : List Package) (a b : String) : Prop :=
  ∃ p ∈ pkgs, p.name = a ∧ ∃ specs, (b, specs) ∈ p.dependencies

/-! ### Depth-first pre-order traversal (model of `nx.dfs_preorder_nodes`,
used by `PkgGraph.dependencies`, graph.py lines 67-77). -/

/-- Number of graph nodes not yet visited (termination measure of the
traversal). -/
def unvisitedCount (g : PkgGraph) (visited : List String) : Nat :=
  ((nodeNames g).toFinset.filter (fun x => ¬ x ∈ visited)).card

/-- A strict decrease of `unvisitedCount` when a fresh graph node is marked
visited; stated as a definition of proof type so it can serve the
termination argument of `dfsAux` ahead of the theorem section. -/
def unvisitedCount_cons_lt {g : PkgGraph} {v : String} {visited : List String}
    (hv : v ∈ nodeNames g) (hnv : ¬ v ∈ visited) :
    unvisitedCount g (v :: visited) < unvisitedCount g visited := by
  apply Finset.card_lt_card
  constructor
  · intro x hx
    simp only [unvisitedCount, Finset.mem_filter, List.mem_cons] at hx ⊢
    exact ⟨hx.1, fun hc => hx.2 (Or.inr hc)⟩
  · intro hsub
    have hvmem : v ∈ (nodeNames g).toFinset.filter (fun x => ¬ x ∈ visited) := by
      simp only [Finset.mem_filter, List.mem_toFinset]
      exact ⟨hv, hnv⟩
    have := hsub hvmem
    simp only [Finset.mem_filter] at this
    exact this.2 (List.mem_cons_self v visited)

/-- Monotonicity of `unvisitedCount` under growing the visited list. -/
def unvisitedCount_anti {g : PkgGraph} {v1 v2 : List String}
    (h : ∀ x, x ∈ v1 → x ∈ v2) : unvisitedCount g v2 ≤ unvisitedCount g v1 := by
  apply Finset.card_le_card
  intro x hx
  simp only [unvisitedCount, Finset.mem_filter] at hx ⊢
  exact ⟨hx.1, fun hc => hx.2 (h x hc)⟩

/-- Depth-first pre-order traversal: explore the pending list `vs` left to
right with the accumulated `visited` list, returning the newly visited nodes
in pre-order (the visited set after exploring a node `v` is exactly
`output ++ v :: visited`, which the recursion threads explicitly).  The
`¬ v ∈ nodeNames g` guard makes the function total on arbitrary graphs; on
graphs built by `buildGraph` every pending name is a node and the guard
never fires (`buildGraph_closed` below). -/
def dfsAux (g : PkgGraph) (vs visited : List String) : List String :=
  match vs with
  | [] => []
  | v :: rest =>
    if h : v ∈ visited ∨ ¬ v ∈ nodeNames g then dfsAux g rest visited
    else
      let out1 := dfsAux g (succsB g v) (v :: visited)
      let out2 := dfsAux g rest (out1 ++ v :: visited)
      v :: (out1 ++ out2)
termination_by (unvisitedCount g visited, vs.length)
decreasing_by
  · apply Prod.Lex.right
    simp
  · apply Prod.Lex.left
    push_neg at h
    exact unvisitedCount_cons_lt h.2 h.1
  · apply Prod.Lex.left
    push_neg at h
    calc unvisitedCount g (out1 ++ v :: visited)
        ≤ unvisitedCount g (v :: visited) :=
          unvisitedCount_anti (fun x hx => List.mem_append_right _ hx)
      _ < unvisitedCount g visited := unvisitedCount_cons_lt h.2 h.1

/-- The node-name list returned by `PkgGraph.dependencies` (graph.py lines
67-77): `nx.dfs_preorder_nodes` from `pkg_name` with the starting node
(always yielded first) dropped. -/
def dependenciesNames (g : PkgGraph) (pkg_name : String) : List String :=
  dfsAux g (succsB g pkg_name) [pkg_name]

/-- `PkgGraph.dependencies`: the payloads of the traversed nodes. -/
def dependencies (g : PkgGraph) (pkg_name : String) : List PkgNode :=
  (dependenciesNames g pkg_name).filterMap (fun n => nodeLookup g.nodes n)

/-- `PkgGraph.third_party_dependencies` (graph.py lines 79-89). -/
def third_party_dependencies (g : PkgGraph) (pkg_name : String) : List PkgNode :=
  (dependencies g pkg_name).filter PkgNode.isThird

/-- `PkgGraph.local_dependencies` (graph.py lines 91-101). -/
def local_dependencies (g : PkgGraph) (pkg_name : String) : List PkgNode :=
  (dependencies g pkg_name).filter PkgNode.isLocal

/-! ## CLI entry point (`src/sbt/__main__.py`). -/

/-- Log levels used by `check_upgrade`. -/
inductive LogLevel where
  | warning
  | trace
deriving DecidableEq, Repr

/-- `check_upgrade` (src/sbt/__main__.py lines 18-25).  The registry query
result is a parameter: per spec section 4.7 `get_latest_version`
(src/sbt/registry/pypi.py, not among the provided sources) returns the
latest version string or an absent result and never raises. -/
def check_upgrade (version : String) (latest_version : Option String) : List LogLevel :=
  if latest_version.any (fun lv => version ≠ lv) then [LogLevel.warning]
  else [LogLevel.trace]

/-- Observable events of one CLI invocation. -/
inductive CliEvent where
  | log (lvl : LogLevel)
  | dispatch (cmd : String)
deriving DecidableEq, Repr

/-- The `cli` group callback plus command dispatch (src/sbt/__main__.py lines
28-41): `check_upgrade` runs first, then the requested subcommand runs. -/
def cli (version : String) (latest_version : Option String) (cmd : String) :
    List CliEvent :=
  (check_upgrade version latest_version).map CliEvent.log ++ [CliEvent.dispatch cmd]

/-! ## Concrete version-specifier model -/

/-- Comparison operators of a version-range clause (spec section 4.2). -/
inductive VOp where
  | veq
  | vle
  | vge
  | vlt
  | vgt
deriving DecidableEq, Repr

/-- The numeric value of a decimal digit character. -/
def digitVal (c : Char) : Option Nat :=
  if '0' ≤ c ∧ c ≤ '9' then some (c.toNat - 48) else none

/-- Accumulate decimal digits into a number. -/
def parseNatAux : List Char → Nat → Option Nat
  | [], acc => some acc
  | c :: rest, acc =>
      match digitVal c with
      | some d => parseNatAux rest (10 * acc + d)
      | none => none

/-- A nonempty all-digit character group as a number. -/
def parseNatChars (cs : List Char) : Option Nat :=
  match cs with
  | [] => none
  | _ => parseNatAux cs 0

/-- Split a character list into the groups between dots. -/
def splitDots : List Char → List (List Char)
  | [] => [[]]
  | c :: rest =>
      if c = '.' then [] :: splitDots rest
      else
        match splitDots rest with
        | g :: gs => (c :: g) :: gs
        | [] => [[c]]

/-- Modelled from the spec: `parse_version` of `sbt/package/discovery.py`
(not among the provided sources) on purely numeric release identifiers — a
dotted sequence of numeric release segments (spec section 4.2). -/
def parseVer (cs : List Char) : Option (List Nat) :=
  (splitDots cs).mapM parseNatChars

/-- Modelled from the spec: one comparison clause `<op><version>` of a
version-range expression (spec section 4.2), restricted to the operators
`>=`, `<=`, `==`, `>`, `<` over numeric versions. -/
def parseClause (s : String) : Option (VOp × List Nat) :=
  match s.data with
  | '>' :: '=' :: rest => (parseVer rest).map (fun v => (VOp.vge, v))
  | '<' :: '=' :: rest => (parseVer rest).map (fun v => (VOp.vle, v))
  | '=' :: '=' :: rest => (parseVer rest).map (fun v => (VOp.veq, v))
  | '>' :: rest => (parseVer rest).map (fun v => (VOp.vgt, v))
  | '<' :: rest => (parseVer rest).map (fun v => (VOp.vlt, v))
  | _ => none

/-- Whether every release segment is zero. -/
def vIsZero : List Nat → Bool
  | [] => true
  | a :: as => a == 0 && vIsZero as

/-- Release-segment comparison with zero padding (`1.0` equals `1.0.0`). -/
def vcmp : List Nat → List Nat → Ordering
  | [], bs => if vIsZero bs then .eq else .lt
  | a :: as, [] => if a = 0 then vcmp as [] else .gt
  | a :: as, b :: bs => if a < b then .lt else if b < a then .gt else vcmp as bs

/-- Strictly below, padded. -/
def vltB (a b : List Nat) : Bool := vcmp a b == Ordering.lt

/-- Below or equal, padded. -/
def vleB (a b : List Nat) : Bool := vcmp a b != Ordering.gt

/-- Equal, padded. -/
def veqB (a b : List Nat) : Bool := vcmp a b == Ordering.eq

/-- The all-zero (minimal) version. -/
def vzero (a : List Nat) : Bool := vcmp a [] == Ordering.eq

/-- Modelled from the spec: satisfiability of the conjunction of two
comparison clauses over the total, unbounded-above, dense-above order of
numeric versions with minimum `0` (spec section 4.2: an intersection "with
no satisfying version" is contradictory). -/
def pairSat : VOp × List Nat → VOp × List Nat → Bool
  | (.veq, a), (.veq, b) => veqB a b
  | (.veq, a), (.vle, b) => vleB a b
  | (.veq, a), (.vlt, b) => vltB a b
  | (.veq, a), (.vge, b) => vleB b a
  | (.veq, a), (.vgt, b) => vltB b a
  | (.vle, a), (.veq, b) => vleB b a
  | (.vlt, a), (.veq, b) => vltB b a
  | (.vge, a), (.veq, b) => vleB a b
  | (.vgt, a), (.veq, b) => vltB a b
  | (.vge, _), (.vge, _) => true
  | (.vge, _), (.vgt, _) => true
  | (.vgt, _), (.vge, _) => true
  | (.vgt, _), (.vgt, _) => true
  | (.vle, _), (.vle, _) => true
  | (.vle, _), (.vlt, b) => !vzero b
  | (.vlt, a), (.vle, _) => !vzero a
  | (.vlt, a), (.vlt, b) => !vzero a && !vzero b
  | (.vge, a), (.vle, b) => vleB a b
  | (.vle, a), (.vge, b) => vleB b a
  | (.vge, a), (.vlt, b) => vltB a b
  | (.vlt, a), (.vge, b) => vltB b a
  | (.vgt, a), (.vle, b) => vltB a b
  | (.vle, a), (.vgt, b) => vltB b a
  | (.vgt, a), (.vlt, b) => vltB a b
  | (.vlt, a), (.vgt, b) => vltB b a

/-- Modelled from the spec: the composition
`parse_version_spec` / `intersect` / `to_pep508_string` of
`sbt/package/discovery.py` (not among the provided sources), on
single-clause specifiers over numeric versions: parse both sides, fail
(`none`, the contradictory case raised as `ValueError` in the source) when
the combined clause set admits no satisfying version, and otherwise render
the union of the clause sets as comma-separated text (spec section 4.2).
Inputs outside the modelled fragment are treated as satisfiable; no
theorem below depends on this function except at inputs inside the
fragment. -/
def specIntersectModel (s1 s2 : String) : Option String :=
  match parseClause s1, parseClause s2 with
  | some c1, some c2 =>
      if pairSat c1 c2 then some (s1 ++ "," ++ s2) else none
  | _, _ => some (s1 ++ "," ++ s2)

/-- The third-party dependency names the target package itself directly
declares (the set claim C1 says the merged install is restricted to). -/
def directThirdPartyDeps (pkgs : List Package) (target : String) : List String :=
  (pkgs.filter (fun p => p.name = target)).flatMap
    (fun p => (p.dependencies.map Prod.fst).filter
      (fun n => ¬ n ∈ pkgs.map Package.name))

/-! ## Concrete inputs used by counterexamples and witnesses -/

/-- A package whose `include` list is empty (a concrete input for claim C7). -/
def pkgC7 : Package := ⟨"alpha", "1.0.0", [], []⟩

/-- A package whose `include` list repeats the package's own name (a second
concrete input for claim C7). -/
def pkgC7b : Package := ⟨"alpha", "1.0.0", ["alpha", "alpha"], []⟩

/-- A two-package workspace where only the sibling `S` has a third-party
dependency (a concrete input for claims C1 and C6). -/
def pkgsC1 : List Package :=
  [⟨"T", "1.0.0", ["T"], []⟩,
   ⟨"S", "1.0.0", ["S"], [("X", [DepConstraint.mk ">=1.0" none none none])]⟩]

/-- A two-package workspace whose packages declare incompatible requirements
for the same third-party dependency `X` (a concrete input for claim C2). -/
def pkgsC2 : List Package :=
  [⟨"A", "1.0.0", ["A"], [("X", [DepConstraint.mk ">=2.0" none none none])]⟩,
   ⟨"B", "1.0.0", ["B"], [("X", [DepConstraint.mk "<1.0" none none none])]⟩]

/-- The workspace of spec property 8.7: local `A` depends on local `B` and
third-party `X`, and `B` depends on `X` (a concrete input for claim C8). -/
def pkgsC8 : List Package :=
  [⟨"A", "1.0.0", ["A"],
    [("B", [DepConstraint.mk ">=1.0" none none none]),
     ("X", [DepConstraint.mk ">=1.0" none none none])]⟩,
   ⟨"B", "1.0.0", ["B"], [("X", [DepConstraint.mk ">=1.0" none none none])]⟩]

/-! # Theorems -/

/-- C3: for every package, after a cached/merged install
(`install_pkg_dependencies`) completes — whether the toolchain delegation
succeeds or raises — the real manifest is back in the package directory with
its pre-install content, and a pre-existing real lock file is back with its
pre-install content.  `tool` ranges over every possible toolchain behaviour,
including failure. -/
theorem c3_install_restores_manifest_and_lock
    (tool : Option String → Option String → Option String × Option String × Bool)
    (modifiedToml : String) (fs : FS) (m : String)
    (h : fs.pkgPyproject = some m) :
    ∃ r, install_pkg_dependencies_fs tool modifiedToml fs = some r ∧
      r.1.pkgPyproject = some m ∧
      ∀ l, fs.pkgLock = some l → r.1.pkgLock = some l := by
  rcases fs with ⟨pp, pl, cmt, cot, col, cml⟩
  simp only at h
  subst h
  simp only [install_pkg_dependencies_fs]
  cases pl with
  | some l =>
      cases cml with
      | some l2 =>
          rcases htool : tool (some modifiedToml) (some l2) with ⟨m', l', ok⟩
          cases l' <;> simp [htool]
      | none =>
          rcases htool : tool (some modifiedToml) none with ⟨m', l', ok⟩
          cases l' <;> simp [htool]
  | none =>
      cases cml with
      | some l2 =>
          rcases htool : tool (some modifiedToml) (some l2) with ⟨m', l', ok⟩
          cases l' <;> cases col <;> simp [htool]
      | none =>
          rcases htool : tool (some modifiedToml) none with ⟨m', l', ok⟩
          cases l' <;> cases col <;> simp [htool]

/-- C3 witness: a concrete run (failing toolchain, pre-existing lock). -/
theorem c3_install_restores_manifest_and_lock_witness :
    ∃ r, install_pkg_dependencies_fs (fun _ _ => (none, none, false)) "merged"
        ⟨some "origmanifest", some "origlock", none, none, none, none⟩ = some r ∧
      r.1.pkgPyproject = some "origmanifest" ∧
      ∀ l, (some "origlock" : Option String) = some l → r.1.pkgLock = some l :=
  c3_install_restores_manifest_and_lock (fun _ _ => (none, none, false)) "merged"
    ⟨some "origmanifest", some "origlock", none, none, none, none⟩ "origmanifest" rfl

/-- C7 counterexample: the claim says that for any `include` list other than
exactly `[package_name]` the generated manifest carries an explicit
`packages` entry; for the empty `include` list, and likewise for a list
repeating the package's own name, the code omits it. -/
theorem c7_counterexample :
    pkgC7.includes ≠ [pkgC7.name] ∧
    (install_bare_pkg_tool pkgC7).packages = none ∧
    (install_pkg_dependencies_tool pkgC7).packages = none ∧
    pkgC7b.includes ≠ [pkgC7b.name] ∧
    (install_bare_pkg_tool pkgC7b).packages = none ∧
    (install_pkg_dependencies_tool pkgC7b).packages = none := by
  refine ⟨by decide, rfl, rfl, by decide, by decide, by decide⟩

/-- C7 amended: both generated manifests omit the explicit `packages` entry
exactly when every entry of the `include` list equals the package's own name
(in particular for the empty list); otherwise the entry is present and
lists every entry of the `include` list. -/
theorem c7_amended_packages_entry (pkg : Package) :
    ((install_bare_pkg_tool pkg).packages = none ∧
      (install_pkg_dependencies_tool pkg).packages = none ∧
      (∀ x ∈ pkg.includes, x = pkg.name)) ∨
    ((install_bare_pkg_tool pkg).packages = some pkg.includes ∧
      (install_pkg_dependencies_tool pkg).packages = some pkg.includes ∧
      ¬ (∀ x ∈ pkg.includes, x = pkg.name)) := by
  have hiff : 0 < pkg.includes.countP (fun x => x ≠ pkg.name) ↔
      ∃ x ∈ pkg.includes, x ≠ pkg.name := by
    rw [List.countP_pos_iff]
    simp
  by_cases hc : ∃ x ∈ pkg.includes, x ≠ pkg.name
  · right
    refine ⟨?_, ?_, ?_⟩
    · simp only [install_bare_pkg_tool]
      rw [if_pos (hiff.mpr hc)]
    · simp only [install_pkg_dependencies_tool]
      rw [if_pos (hiff.mpr hc)]
    · intro hall
      obtain ⟨a, ha, hne⟩ := hc
      exact hne (hall a ha)
  · left
    have hnot : ¬ 0 < pkg.includes.countP (fun x => x ≠ pkg.name) :=
      fun hpos => hc (hiff.mp hpos)
    refine ⟨?_, ?_, ?_⟩
    · simp only [install_bare_pkg_tool]
      rw [if_neg hnot]
    · simp only [install_pkg_dependencies_tool]
      rw [if_neg hnot]
    · intro x hx
      by_contra hne
      exact hc ⟨x, hx, hne⟩

theorem dictInsert_mem_keys (m : List (String × DepConstraint)) (k k' : String)
    (v : DepConstraint) :
    k' ∈ (dictInsert m k v).map Prod.fst ↔ k' ∈ m.map Prod.fst ∨ k' = k := by
  induction m with
  | nil => simp [dictInsert]
  | cons p rest ih =>
      obtain ⟨k0, v0⟩ := p
      simp only [dictInsert]
      by_cases h : k0 = k
      · subst h
        simp
        tauto
      · simp only [if_neg h, List.map_cons, List.mem_cons]
        rw [ih]
        tauto

theorem dictInsert_of_not_mem (m : List (String × DepConstraint)) (k : String)
    (v : DepConstraint) (h : ¬ k ∈ m.map Prod.fst) :
    dictInsert m k v = m ++ [(k, v)] := by
  induction m with
  | nil => simp [dictInsert]
  | cons p rest ih =>
      obtain ⟨k0, v0⟩ := p
      simp only [List.map_cons, List.mem_cons] at h
      push_neg at h
      simp only [dictInsert, List.cons_append]
      rw [ih h.2, if_neg (fun hc => h.1 hc.symm)]

theorem dictInsert_keys_of_mem (m : List (String × DepConstraint)) (k : String)
    (v : DepConstraint) (h : k ∈ m.map Prod.fst) :
    (dictInsert m k v).map Prod.fst = m.map Prod.fst := by
  induction m with
  | nil => simp at h
  | cons p rest ih =>
      obtain ⟨k0, v0⟩ := p
      by_cases h0 : k0 = k
      · subst h0
        simp [dictInsert]
      · simp only [List.map_cons, List.mem_cons] at h
        rcases h with h | h
        · exact absurd h.symm h0
        · simp only [dictInsert, if_neg h0, List.map_cons]
          rw [ih h]

theorem dictInsert_length_le (m : List (String × DepConstraint)) (k : String)
    (v : DepConstraint) : (dictInsert m k v).length ≤ m.length + 1 := by
  by_cases h : k ∈ m.map Prod.fst
  · have := dictInsert_keys_of_mem m k v h
    have hlen : (dictInsert m k v).length = m.length := by
      have h1 := congrArg List.length this
      simpa using h1
    omega
  · rw [dictInsert_of_not_mem m k v h]
    simp

/-- Membership in the keys of the `find_common_specs` dict build,
generalized over the accumulator. -/
theorem specFold_mem_keys (ds : DepConstraints) :
    ∀ (m : List (String × DepConstraint)) (k : String),
    (k ∈ (ds.foldl (fun m' x => dictInsert m' (constraintKey x) x) m).map Prod.fst) ↔
      k ∈ m.map Prod.fst ∨ k ∈ ds.map constraintKey := by
  induction ds with
  | nil => simp
  | cons x rest ih =>
      intro m k
      simp only [List.foldl_cons, List.map_cons, List.mem_cons]
      rw [ih]
      rw [dictInsert_mem_keys]
      tauto

theorem specFold_length_le (ds : DepConstraints) :
    ∀ (m : List (String × DepConstraint)),
    (ds.foldl (fun m' x => dictInsert m' (constraintKey x) x) m).length ≤
      m.length + ds.length := by
  induction ds with
  | nil => simp
  | cons x rest ih =>
      intro m
      simp only [List.foldl_cons, List.length_cons]
      calc (rest.foldl (fun m' x => dictInsert m' (constraintKey x) x)
              (dictInsert m (constraintKey x) x)).length
          ≤ (dictInsert m (constraintKey x) x).length + rest.length := ih _
        _ ≤ (m.length + 1) + rest.length :=
            Nat.add_le_add_right (dictInsert_length_le m _ x) _
        _ = m.length + (rest.length + 1) := by omega

theorem specFold_length_iff (ds : DepConstraints) :
    ∀ (m : List (String × DepConstraint)),
    ((ds.foldl (fun m' x => dictInsert m' (constraintKey x) x) m).length =
        m.length + ds.length) ↔
      ((ds.map constraintKey).Nodup ∧ ∀ x ∈ ds, ¬ constraintKey x ∈ m.map Prod.fst) := by
  induction ds with
  | nil => simp
  | cons x rest ih =>
      intro m
      simp only [List.foldl_cons, List.length_cons, List.map_cons, List.nodup_cons]
      by_cases hmem : constraintKey x ∈ m.map Prod.fst
      · constructor
        · intro hlen
          exfalso
          have hle := specFold_length_le rest (dictInsert m (constraintKey x) x)
          have hkeys := dictInsert_keys_of_mem m (constraintKey x) x hmem
          have hlen2 : (dictInsert m (constraintKey x) x).length = m.length := by
            have h1 := congrArg List.length hkeys
            simpa using h1
          omega
        · intro h
          exact absurd hmem (h.2 x (List.mem_cons_self x rest))
      · rw [dictInsert_of_not_mem m _ x hmem] at *
        have ih' := ih (m ++ [(constraintKey x, x)])
        simp only [List.length_append, List.length_cons, List.length_nil] at ih'
        constructor
        · intro hlen
          have hconds := (ih'.mp (by omega))
          obtain ⟨hnodup, hall⟩ := hconds
          refine ⟨⟨?_, hnodup⟩, ?_⟩
          · intro hx
            obtain ⟨y, hy, hky⟩ := List.mem_map.mp hx
            have := hall y hy
            simp only [List.map_append, List.mem_append] at this
            push_neg at this
            exact this.2 (by simp [hky])
          · intro z hz
            rcases List.mem_cons.mp hz with rfl | hz'
            · exact hmem
            · have := hall z hz'
              simp only [List.map_append, List.mem_append] at this
              push_neg at this
              exact this.1
        · rintro ⟨⟨hnotin, hnodup⟩, hall⟩
          have : (rest.map constraintKey).Nodup ∧
              ∀ z ∈ rest, ¬ constraintKey z ∈ (m ++ [(constraintKey x, x)]).map Prod.fst := by
            refine ⟨hnodup, ?_⟩
            intro z hz
            simp only [List.map_append, List.mem_append]
            push_neg
            constructor
            · exact hall z (List.mem_cons_of_mem x hz)
            · simp only [List.map_cons, List.map_nil, List.mem_singleton]
              intro hc
              exact hnotin (List.mem_map.mpr ⟨z, hz, hc⟩)
          have := ih'.mpr this
          omega

theorem specFold_eq_append (ds : DepConstraints) :
    ∀ (m : List (String × DepConstraint)),
    (ds.map constraintKey).Nodup →
    (∀ x ∈ ds, ¬ constraintKey x ∈ m.map Prod.fst) →
    ds.foldl (fun m' x => dictInsert m' (constraintKey x) x) m =
      m ++ ds.map (fun x => (constraintKey x, x)) := by
  induction ds with
  | nil => simp
  | cons x rest ih =>
      intro m hnodup hall
      simp only [List.map_cons, List.nodup_cons] at hnodup
      simp only [List.foldl_cons]
      rw [dictInsert_of_not_mem m _ x (hall x (List.mem_cons_self x rest))]
      rw [ih (m ++ [(constraintKey x, x)]) hnodup.2 ?_]
      · simp
      · intro z hz
        simp only [List.map_append, List.mem_append, List.map_cons, List.map_nil,
          List.mem_singleton]
        push_neg
        refine ⟨hall z (List.mem_cons_of_mem x hz), ?_⟩
        intro hc
        exact hnodup.1 (List.mem_map.mpr ⟨z, hz, hc⟩)

theorem buildSpecMap_mem_keys (ds : DepConstraints) (k : String) :
    k ∈ (buildSpecMap ds).map Prod.fst ↔ k ∈ ds.map constraintKey := by
  have := specFold_mem_keys ds [] k
  simpa [buildSpecMap] using this

theorem buildSpecMap_length_iff (ds : DepConstraints) :
    (buildSpecMap ds).length = ds.length ↔ (ds.map constraintKey).Nodup := by
  have := specFold_length_iff ds []
  simpa [buildSpecMap] using this

theorem buildSpecMap_eq_map (ds : DepConstraints)
    (h : (ds.map constraintKey).Nodup) :
    buildSpecMap ds = ds.map (fun x => (constraintKey x, x)) := by
  have := specFold_eq_append ds [] h (by simp)
  simpa [buildSpecMap] using this

theorem alistLookup_map_pair (d : DepConstraints) (k : String) :
    alistLookup (d.map (fun y => (constraintKey y, y))) k = labelLookup d k := by
  induction d with
  | nil => simp [alistLookup, labelLookup]
  | cons y rest ih =>
      by_cases h : constraintKey y = k
      · simp [alistLookup, labelLookup, List.find?_cons, h]
      · have hb : (constraintKey y == k) = false := by
          simp [h]
        simp only [List.map_cons, alistLookup, if_neg h, labelLookup, List.find?_cons, hb]
        exact ih

/-- C9: for every outcome of the release-registry query, `check_upgrade`
returns normally (producing exactly one log message, a warning exactly when
a version string was returned that differs from the running version), and
the requested subcommand is always dispatched. -/
theorem c9_check_upgrade_never_aborts (version : String) (latest : Option String)
    (cmd : String) :
    (check_upgrade version latest = [LogLevel.warning] ∨
      check_upgrade version latest = [LogLevel.trace]) ∧
    (check_upgrade version latest = [LogLevel.warning] ↔
      ∃ s, latest = some s ∧ s ≠ version) ∧
    (cli version latest cmd).getLast? = some (CliEvent.dispatch cmd) := by
  refine ⟨?_, ?_, ?_⟩
  · cases latest with
    | none => right; rfl
    | some s =>
        by_cases hs : version = s
        · right; simp [check_upgrade, hs]
        · left; simp [check_upgrade, hs]
  · cases latest with
    | none => simp [check_upgrade]
    | some s =>
        by_cases hs : version = s
        · simp [check_upgrade, hs]
        · simp [check_upgrade, hs, Ne.symm hs]
  · simp [cli]

theorem mergeLoop_ok (si : String → String → Option String)
    (a : List (String × DepConstraint)) (l : List (String × DepConstraint)) :
    ∀ acc r, mergeLoop si a l acc = .ok r →
      r = acc ++ l.map (fun p =>
        DepConstraint.mk
          (match alistLookup a p.1 with
           | some y => (si p.2.version_spec y.version_spec).getD p.2.version_spec
           | none => p.2.version_spec)
          (some p.1) p.2.version_spec_field p.2.origin_spec) := by
  induction l with
  | nil =>
      intro acc r h
      simp only [mergeLoop] at h
      cases h
      simp
  | cons p rest ih =>
      intro acc r h
      obtain ⟨k, x⟩ := p
      cases hl : alistLookup a k with
      | none =>
          simp only [mergeLoop, hl] at h
          exact absurd h (by simp)
      | some y =>
          cases hsi : si x.version_spec y.version_spec with
          | none =>
              simp only [mergeLoop, hl, hsi] at h
              exact absurd h (by simp)
          | some t =>
              simp only [mergeLoop, hl, hsi] at h
              have hr := ih _ _ h
              rw [hr]
              simp [hl, hsi]

theorem mergeLoop_isOk_iff (si : String → String → Option String)
    (a : List (String × DepConstraint)) (l : List (String × DepConstraint)) :
    ∀ acc, (∃ r, mergeLoop si a l acc = .ok r) ↔
      ∀ p ∈ l, ∃ y, alistLookup a p.1 = some y ∧
        ∃ t, si p.2.version_spec y.version_spec = some t := by
  induction l with
  | nil =>
      intro acc
      simp [mergeLoop]
  | cons p rest ih =>
      intro acc
      obtain ⟨k, x⟩ := p
      cases hl : alistLookup a k with
      | none =>
          constructor
          · rintro ⟨r, hr⟩
            simp only [mergeLoop, hl] at hr
            exact absurd hr (by simp)
          · intro h
            obtain ⟨y, hy, _⟩ := h (k, x) (List.mem_cons_self _ _)
            rw [hl] at hy
            cases hy
      | some y =>
          cases hsi : si x.version_spec y.version_spec with
          | none =>
              constructor
              · rintro ⟨r, hr⟩
                simp only [mergeLoop, hl, hsi] at hr
                exact absurd hr (by simp)
              · intro h
                obtain ⟨y', hy', t, ht⟩ := h (k, x) (List.mem_cons_self _ _)
                rw [hl] at hy'
                cases hy'
                rw [hsi] at ht
                cases ht
          | some t =>
              constructor
              · rintro ⟨r, hr⟩
                simp only [mergeLoop, hl, hsi] at hr
                intro p hp
                rcases List.mem_cons.mp hp with rfl | hp'
                · exact ⟨y, hl, t, hsi⟩
                · exact ((ih _).mp ⟨r, hr⟩) p hp'
              · intro h
                obtain ⟨r, hr⟩ :=
                  (ih (acc ++ [⟨t, some k, x.version_spec_field, x.origin_spec⟩])).mpr
                    (fun p hp => h p (List.mem_cons_of_mem _ hp))
                refine ⟨r, ?_⟩
                simp only [mergeLoop, hl, hsi]
                exact hr

theorem mergeLoop_error_kind (si : String → String → Option String)
    (a : List (String × DepConstraint)) (l : List (String × DepConstraint)) :
    ∀ acc e, mergeLoop si a l acc = .error e → e = .incompatibleSpecs := by
  induction l with
  | nil =>
      intro acc e h
      simp [mergeLoop] at h
  | cons p rest ih =>
      intro acc e h
      obtain ⟨k, x⟩ := p
      cases hl : alistLookup a k with
      | none =>
          simp only [mergeLoop, hl] at h
          exact (Except.error.inj h).symm
      | some y =>
          cases hsi : si x.version_spec y.version_spec with
          | none =>
              simp only [mergeLoop, hl, hsi] at h
              exact (Except.error.inj h).symm
          | some t =>
              simp only [mergeLoop, hl, hsi] at h
              exact ih _ _ h

theorem buildSpecMap_keyset (d : DepConstraints) :
    ((buildSpecMap d).map Prod.fst).toFinset = (d.map constraintKey).toFinset := by
  ext k
  simp only [List.mem_toFinset]
  exact buildSpecMap_mem_keys d k

/-- The unique matching partner on the other side, under distinct labels. -/
theorem labelLookup_unique (d : DepConstraints) (hn : (d.map constraintKey).Nodup)
    {y : DepConstraint} (hy : y ∈ d) :
    labelLookup d (constraintKey y) = some y := by
  cases hfind : labelLookup d (constraintKey y) with
  | none =>
      exfalso
      have hfind' : d.find? (fun w => constraintKey w == constraintKey y) = none := by
        simpa [labelLookup] using hfind
      rw [List.find?_eq_none] at hfind'
      exact hfind' y hy (by simp)
  | some z =>
      have hfind' : d.find? (fun w => constraintKey w == constraintKey y) = some z := by
        simpa [labelLookup] using hfind
      have hz : z ∈ d := List.mem_of_find?_eq_some hfind'
      have hkz := List.find?_some hfind'
      have hkey : constraintKey z = constraintKey y := by simpa using hkz
      have := List.inj_on_of_nodup_map hn hz hy hkey
      rw [this]

/-- C4: `find_common_specs` fails with the "duplicated specs" incompatibility
exactly when either side repeats a constraint label, with the "different
number of specs" incompatibility exactly when (labels being duplicate-free)
the two sides' label sets differ, and with the "incompatible specs"
incompatibility exactly when (labels matching up) some matching pair's
version-range intersection is contradictory; otherwise it returns one merged
entry per label of the first side, keeping the first side's label, spec-field
name and origin metadata with the intersected re-rendered text. -/
theorem c4_find_common_specs (si : String → String → Option String)
    (d1 d2 : DepConstraints) :
    (find_common_specs si d1 d2 = .error .duplicatedSpecs ↔
      (¬ (d1.map constraintKey).Nodup ∨ ¬ (d2.map constraintKey).Nodup)) ∧
    (find_common_specs si d1 d2 = .error .differentNumberOfSpecs ↔
      ((d1.map constraintKey).Nodup ∧ (d2.map constraintKey).Nodup ∧
        (d1.map constraintKey).toFinset ≠ (d2.map constraintKey).toFinset)) ∧
    (find_common_specs si d1 d2 = .error .incompatibleSpecs ↔
      ((d1.map constraintKey).Nodup ∧ (d2.map constraintKey).Nodup ∧
        (d1.map constraintKey).toFinset = (d2.map constraintKey).toFinset ∧
        ∃ x ∈ d1, ∃ y ∈ d2, constraintKey x = constraintKey y ∧
          si x.version_spec y.version_spec = none)) ∧
    (∀ r, find_common_specs si d1 d2 = .ok r → r = d1.map (mergeEntry si d2)) := by
  by_cases h1 : (d1.map constraintKey).Nodup ∧ (d2.map constraintKey).Nodup
  · obtain ⟨hn1, hn2⟩ := h1
    have hlen1 : (buildSpecMap d1).length = d1.length := (buildSpecMap_length_iff d1).mpr hn1
    have hlen2 : (buildSpecMap d2).length = d2.length := (buildSpecMap_length_iff d2).mpr hn2
    have hgate1 : ¬ ¬ ((buildSpecMap d1).length = d1.length ∧
        (buildSpecMap d2).length = d2.length) := by
      push_neg
      exact ⟨hlen1, hlen2⟩
    by_cases h2 : (d1.map constraintKey).toFinset = (d2.map constraintKey).toFinset
    · have hsets : ((buildSpecMap d1).map Prod.fst).toFinset =
          ((buildSpecMap d2).map Prod.fst).toFinset := by
        rw [buildSpecMap_keyset, buildSpecMap_keyset, h2]
      have hfind : find_common_specs si d1 d2 =
          mergeLoop si (buildSpecMap d2) (buildSpecMap d1) [] := by
        simp only [find_common_specs]
        rw [if_neg hgate1, if_neg (by simpa using hsets)]
      have hb1 : buildSpecMap d1 = d1.map (fun x => (constraintKey x, x)) :=
        buildSpecMap_eq_map d1 hn1
      have hb2 : buildSpecMap d2 = d2.map (fun x => (constraintKey x, x)) :=
        buildSpecMap_eq_map d2 hn2
      by_cases h3 : ∃ x ∈ d1, ∃ y ∈ d2, constraintKey x = constraintKey y ∧
          si x.version_spec y.version_spec = none
      · -- some matching pair is contradictory: the loop fails
        have hnotok : ¬ ∃ r, mergeLoop si (buildSpecMap d2) (buildSpecMap d1) [] = .ok r := by
          rw [mergeLoop_isOk_iff]
          intro hall
          obtain ⟨x, hx, y, hy, hkey, hfail⟩ := h3
          have hp : (constraintKey x, x) ∈ buildSpecMap d1 := by
            rw [hb1]
            exact List.mem_map.mpr ⟨x, hx, rfl⟩
          obtain ⟨y', hy', t, ht⟩ := hall (constraintKey x, x) hp
          rw [hb2, alistLookup_map_pair] at hy'
          rw [hkey] at hy'
          rw [labelLookup_unique d2 hn2 hy] at hy'
          cases hy'
          rw [hfail] at ht
          cases ht
        have herr : ∃ e, mergeLoop si (buildSpecMap d2) (buildSpecMap d1) [] = .error e := by
          cases hres : mergeLoop si (buildSpecMap d2) (buildSpecMap d1) [] with
          | error e => exact ⟨e, rfl⟩
          | ok r => exact absurd ⟨r, hres⟩ hnotok
        obtain ⟨e, he⟩ := herr
        have hekind := mergeLoop_error_kind si _ _ _ _ he
        subst hekind
        refine ⟨?_, ?_, ?_, ?_⟩
        · rw [hfind, he]
          simp only [Except.error.injEq]
          constructor
          · intro hc; cases hc
          · intro hc
            rcases hc with hc | hc
            · exact absurd hn1 hc
            · exact absurd hn2 hc
        · rw [hfind, he]
          simp only [Except.error.injEq]
          constructor
          · intro hc; cases hc
          · rintro ⟨_, _, hne⟩
            exact absurd h2 hne
        · rw [hfind, he]
          simp only [Except.error.injEq, true_iff]
          exact ⟨hn1, hn2, h2, h3⟩
        · intro r hr
          rw [hfind, he] at hr
          cases hr
      · -- every matching pair intersects: the loop succeeds
        have hok : ∃ r, mergeLoop si (buildSpecMap d2) (buildSpecMap d1) [] = .ok r := by
          rw [mergeLoop_isOk_iff]
          intro p hp
          rw [hb1] at hp
          obtain ⟨x, hx, rfl⟩ := List.mem_map.mp hp
          have hkmem : constraintKey x ∈ (d2.map constraintKey).toFinset := by
            rw [← h2]
            simp only [List.mem_toFinset]
            exact List.mem_map.mpr ⟨x, hx, rfl⟩
          simp only [List.mem_toFinset] at hkmem
          obtain ⟨y, hy, hkey⟩ := List.mem_map.mp hkmem
          refine ⟨y, ?_, ?_⟩
          · rw [hb2, alistLookup_map_pair, ← hkey]
            exact labelLookup_unique d2 hn2 hy
          · cases hsi : si x.version_spec y.version_spec with
            | none => exact absurd ⟨x, hx, y, hy, hkey.symm, hsi⟩ h3
            | some t => exact ⟨t, rfl⟩
        obtain ⟨r, hr⟩ := hok
        refine ⟨?_, ?_, ?_, ?_⟩
        · rw [hfind, hr]
          constructor
          · intro hc; cases hc
          · intro hc
            rcases hc with hc | hc
            · exact absurd hn1 hc
            · exact absurd hn2 hc
        · rw [hfind, hr]
          constructor
          · intro hc; cases hc
          · rintro ⟨_, _, hne⟩
            exact absurd h2 hne
        · rw [hfind, hr]
          constructor
          · intro hc; cases hc
          · rintro ⟨_, _, _, hc⟩
            exact absurd hc h3
        · intro r' hr'
          rw [hfind, hr] at hr'
          cases hr'
          have := mergeLoop_ok si (buildSpecMap d2) (buildSpecMap d1) [] r hr
          rw [this, hb1]
          simp only [List.nil_append, List.map_map]
          apply List.map_congr_left
          intro x hx
          simp only [Function.comp_apply, mergeEntry]
          rw [hb2, alistLookup_map_pair]
    · -- label sets differ: the second gate fires
      have hsets : ¬ ((buildSpecMap d1).map Prod.fst).toFinset =
          ((buildSpecMap d2).map Prod.fst).toFinset := by
        rw [buildSpecMap_keyset, buildSpecMap_keyset]
        exact h2
      have hfind : find_common_specs si d1 d2 = .error .differentNumberOfSpecs := by
        simp only [find_common_specs]
        rw [if_neg hgate1, if_pos (by simpa using hsets)]
      refine ⟨?_, ?_, ?_, ?_⟩
      · rw [hfind]
        simp only [Except.error.injEq]
        constructor
        · intro hc; cases hc
        · intro hc
          rcases hc with hc | hc
          · exact absurd hn1 hc
          · exact absurd hn2 hc
      · rw [hfind]
        simp only [Except.error.injEq, true_iff]
        exact ⟨hn1, hn2, h2⟩
      · rw [hfind]
        simp only [Except.error.injEq]
        constructor
        · intro hc; cases hc
        · rintro ⟨_, _, heq, _⟩
          exact absurd heq h2
      · intro r hr
        rw [hfind] at hr
        cases hr
  · -- some side has duplicate labels: the first gate fires
    have hgate1 : ¬ ((buildSpecMap d1).length = d1.length ∧
        (buildSpecMap d2).length = d2.length) := by
      intro hc
      exact h1 ⟨(buildSpecMap_length_iff d1).mp hc.1, (buildSpecMap_length_iff d2).mp hc.2⟩
    have hfind : find_common_specs si d1 d2 = .error .duplicatedSpecs := by
      simp only [find_common_specs]
      rw [if_pos (by exact hgate1)]
    rw [Classical.not_and_iff_or_not_not] at h1
    refine ⟨?_, ?_, ?_, ?_⟩
    · rw [hfind]
      simp only [Except.error.injEq, true_iff]
      exact h1
    · rw [hfind]
      simp only [Except.error.injEq]
      constructor
      · intro hc; cases hc
      · rintro ⟨ha, hb, _⟩
        rcases h1 with hc | hc
        · exact absurd ha hc
        · exact absurd hb hc
    · rw [hfind]
      simp only [Except.error.injEq]
      constructor
      · intro hc; cases hc
      · rintro ⟨ha, hb, _⟩
        rcases h1 with hc | hc
        · exact absurd ha hc
        · exact absurd hb hc
    · intro r hr
      rw [hfind] at hr
      cases hr

/-- C4 witness: a successful merge of `>=1.0` (empty-string label) with
`<2.0` (unlabeled), and the "incompatible specs" failure of `>=2.0` against
`<1.0`, both through the modelled intersection. -/
theorem c4_find_common_specs_witness :
    (([DepConstraint.mk ">=1.0,<2.0" (some "") none none] : DepConstraints) =
      ([DepConstraint.mk ">=1.0" (some "") none none] : DepConstraints).map
        (mergeEntry specIntersectModel [DepConstraint.mk "<2.0" none none none])) ∧
    find_common_specs specIntersectModel
        [DepConstraint.mk ">=2.0" (some "") none none]
        [DepConstraint.mk "<1.0" none none none] =
      .error .incompatibleSpecs := by
  constructor
  · exact (c4_find_common_specs specIntersectModel
      [DepConstraint.mk ">=1.0" (some "") none none]
      [DepConstraint.mk "<2.0" none none none]).2.2.2
      [DepConstraint.mk ">=1.0,<2.0" (some "") none none] (by decide)
  · exact (c4_find_common_specs specIntersectModel
      [DepConstraint.mk ">=2.0" (some "") none none]
      [DepConstraint.mk "<1.0" none none none]).2.2.1.mpr
      ⟨by decide, by decide, by decide,
        DepConstraint.mk ">=2.0" (some "") none none, by decide,
        DepConstraint.mk "<1.0" none none none, by decide, by decide, by decide⟩

theorem pairMap_key (x : DepConstraint) :
    constraintKey (normalizeLabel x) = constraintKey x := by
  cases x with
  | mk vs c f o => cases c <;> rfl

theorem dictInsert_map_normalize (m : List (String × DepConstraint)) (k : String)
    (v : DepConstraint) :
    dictInsert (m.map (fun p => (p.1, normalizeLabel p.2))) k (normalizeLabel v) =
      (dictInsert m k v).map (fun p => (p.1, normalizeLabel p.2)) := by
  induction m with
  | nil => simp [dictInsert]
  | cons p rest ih =>
      obtain ⟨k0, v0⟩ := p
      by_cases h : k0 = k
      · subst h
        simp [dictInsert]
      · simp only [List.map_cons, dictInsert, if_neg h]
        rw [ih]

theorem buildSpecMap_map_normalize (d : DepConstraints) :
    buildSpecMap (d.map normalizeLabel) =
      (buildSpecMap d).map (fun p => (p.1, normalizeLabel p.2)) := by
  have hgen : ∀ (m : List (String × DepConstraint)),
      (d.map normalizeLabel).foldl (fun m' x => dictInsert m' (constraintKey x) x)
          (m.map (fun p => (p.1, normalizeLabel p.2))) =
        (d.foldl (fun m' x => dictInsert m' (constraintKey x) x) m).map
          (fun p => (p.1, normalizeLabel p.2)) := by
    induction d with
    | nil => intro m; simp
    | cons x rest ih =>
        intro m
        simp only [List.map_cons, List.foldl_cons]
        rw [pairMap_key, dictInsert_map_normalize]
        exact ih (dictInsert m (constraintKey x) x)
  have := hgen []
  simpa [buildSpecMap] using this

theorem alistLookup_map_normalize (a : List (String × DepConstraint)) (k : String) :
    alistLookup (a.map (fun p => (p.1, normalizeLabel p.2))) k =
      (alistLookup a k).map normalizeLabel := by
  induction a with
  | nil => simp [alistLookup]
  | cons p rest ih =>
      obtain ⟨k0, v0⟩ := p
      by_cases h : k0 = k
      · subst h
        simp [alistLookup]
      · simp only [List.map_cons, alistLookup, if_neg h]
        exact ih

theorem mergeLoop_map_left (si : String → String → Option String)
    (a : List (String × DepConstraint)) (l : List (String × DepConstraint)) :
    ∀ acc, mergeLoop si a (l.map (fun p => (p.1, normalizeLabel p.2))) acc =
      mergeLoop si a l acc := by
  induction l with
  | nil => intro acc; rfl
  | cons p rest ih =>
      intro acc
      obtain ⟨k, x⟩ := p
      cases hl : alistLookup a k with
      | none => simp only [List.map_cons, mergeLoop, hl]
      | some y =>
          cases hsi : si x.version_spec y.version_spec with
          | none =>
              simp only [List.map_cons, mergeLoop, hl]
              rw [show (normalizeLabel x).version_spec = x.version_spec from rfl, hsi]
          | some t =>
              simp only [List.map_cons, mergeLoop, hl]
              rw [show (normalizeLabel x).version_spec = x.version_spec from rfl, hsi]
              rw [show (normalizeLabel x).version_spec_field = x.version_spec_field from rfl]
              rw [show (normalizeLabel x).origin_spec = x.origin_spec from rfl]
              exact ih _

theorem mergeLoop_map_right (si : String → String → Option String)
    (a : List (String × DepConstraint)) (l : List (String × DepConstraint)) :
    ∀ acc, mergeLoop si (a.map (fun p => (p.1, normalizeLabel p.2))) l acc =
      mergeLoop si a l acc := by
  induction l with
  | nil => intro acc; rfl
  | cons p rest ih =>
      intro acc
      obtain ⟨k, x⟩ := p
      simp only [mergeLoop, alistLookup_map_normalize]
      cases hl : alistLookup a k with
      | none => simp
      | some y =>
          simp only [Option.map_some']
          rw [show (normalizeLabel y).version_spec = y.version_spec from rfl]
          cases hsi : si x.version_spec y.version_spec with
          | none => simp
          | some t =>
              simp only
              exact ih _

/-- C10: `find_common_specs` keys constraint entries by their label with an
absent (`None`) label identical to the empty-string label: replacing absent
labels by empty-string labels on either side leaves the whole result
(including every failure mode) unchanged, so an unlabeled entry merges with
an empty-string-labeled one, and an unlabeled plus an empty-string-labeled
entry on one side count as duplicate labels. -/
theorem c10_label_normalization (si : String → String → Option String)
    (d1 d2 : DepConstraints) :
    find_common_specs si (d1.map normalizeLabel) d2 = find_common_specs si d1 d2 ∧
    find_common_specs si d1 (d2.map normalizeLabel) = find_common_specs si d1 d2 := by
  have hkeys : ∀ d : DepConstraints,
      ((buildSpecMap d).map (fun p => (p.1, normalizeLabel p.2))).map Prod.fst =
        (buildSpecMap d).map Prod.fst := by
    intro d
    rw [List.map_map]
    rfl
  constructor
  · simp only [find_common_specs, buildSpecMap_map_normalize, hkeys,
      List.length_map, mergeLoop_map_left]
  · simp only [find_common_specs, buildSpecMap_map_normalize, hkeys,
      List.length_map, mergeLoop_map_right]

theorem aggUpdate_keys (m : List (String × AggEntry)) (k : String) (v : AggEntry) :
    (aggUpdate m k v).map Prod.fst = m.map Prod.fst := by
  induction m with
  | nil => rfl
  | cons p rest ih =>
      obtain ⟨k0, v0⟩ := p
      by_cases h : k0 = k
      · subst h
        simp [aggUpdate]
      · simp only [aggUpdate, if_neg h, List.map_cons]
        rw [ih]

theorem aggLookup_mem (m : List (String × AggEntry)) (k : String) (e : AggEntry)
    (h : aggLookup m k = some e) : k ∈ m.map Prod.fst := by
  induction m with
  | nil => simp [aggLookup] at h
  | cons p rest ih =>
      obtain ⟨k0, v0⟩ := p
      by_cases h0 : k0 = k
      · subst h0
        simp
      · simp only [aggLookup, if_neg h0] at h
        simp only [List.map_cons, List.mem_cons]
        exact Or.inr (ih h)

/-- Effect of one aggregation step on the set of aggregated dependency names,
under the invariant that invalidated names already have a table entry. -/
theorem aggStep_names (si : String → String → Option String) (ln : List String)
    (tol : Bool) (st : AggState) (pn : String) (dep : String × DepConstraints)
    (st' : AggState) (hs : aggStep si ln tol st pn dep = .ok st')
    (hinv : ∀ m ∈ st.invalid, m ∈ st.thirdparty.map Prod.fst) :
    (∀ n, n ∈ st'.thirdparty.map Prod.fst ↔
      (n ∈ st.thirdparty.map Prod.fst ∨ (¬ dep.1 ∈ ln ∧ n = dep.1))) ∧
    (∀ m ∈ st'.invalid, m ∈ st'.thirdparty.map Prod.fst) := by
  by_cases hskip : dep.1 ∈ ln ∨ dep.1 ∈ st.invalid
  · simp only [aggStep, if_pos hskip] at hs
    cases hs
    refine ⟨?_, hinv⟩
    intro n
    constructor
    · exact fun h => Or.inl h
    · rintro (h | ⟨hln, rfl⟩)
      · exact h
      · rcases hskip with h1 | h1
        · exact absurd h1 hln
        · exact hinv _ h1
  · push_neg at hskip
    have hskip' : ¬ (dep.1 ∈ ln ∨ dep.1 ∈ st.invalid) := by
      push_neg
      exact hskip
    cases hlook : aggLookup st.thirdparty dep.1 with
    | none =>
        simp only [aggStep, if_neg hskip', hlook] at hs
        cases hs
        constructor
        · intro n
          simp only [List.map_append, List.mem_append, List.map_cons, List.map_nil,
            List.mem_singleton]
          constructor
          · rintro (h | rfl)
            · exact Or.inl h
            · exact Or.inr ⟨hskip.1, rfl⟩
          · rintro (h | ⟨_, rfl⟩)
            · exact Or.inl h
            · exact Or.inr rfl
        · intro m hm
          simp only [List.map_append, List.mem_append]
          exact Or.inl (hinv m hm)
    | some entry =>
        cases hm : find_common_specs si entry.specs dep.2 with
        | ok merged =>
            simp only [aggStep, if_neg hskip', hlook, hm] at hs
            cases hs
            constructor
            · intro n
              simp only [aggUpdate_keys]
              constructor
              · exact fun h => Or.inl h
              · rintro (h | ⟨_, rfl⟩)
                · exact h
                · exact aggLookup_mem _ _ _ hlook
            · intro m hmem
              simp only [aggUpdate_keys]
              exact hinv m hmem
        | error e =>
            cases tol with
            | false =>
                simp only [aggStep, if_neg hskip', hlook, hm] at hs
                simp at hs
            | true =>
                simp only [aggStep, if_neg hskip', hlook, hm] at hs
                cases hs
                constructor
                · intro n
                  simp only [aggUpdate_keys]
                  constructor
                  · exact fun h => Or.inl h
                  · rintro (h | ⟨_, rfl⟩)
                    · exact h
                    · exact aggLookup_mem _ _ _ hlook
                · intro m hmem
                  simp only [aggUpdate_keys, List.mem_append, List.mem_singleton] at hmem ⊢
                  rcases hmem with hmem | rfl
                  · exact hinv m hmem
                  · exact aggLookup_mem _ _ _ hlook

/-- Effect of the whole aggregation loop on the set of aggregated names. -/
theorem aggRun_names (si : String → String → Option String) (ln : List String)
    (tol : Bool) (L : List (String × (String × DepConstraints))) :
    ∀ st st', (aggRun si ln tol L st).2 = .ok st' →
      (∀ m ∈ st.invalid, m ∈ st.thirdparty.map Prod.fst) →
      ((∀ n, n ∈ st'.thirdparty.map Prod.fst ↔
          (n ∈ st.thirdparty.map Prod.fst ∨
            (¬ n ∈ ln ∧ n ∈ L.map (fun pr => pr.2.1)))) ∧
        (∀ m ∈ st'.invalid, m ∈ st'.thirdparty.map Prod.fst)) := by
  induction L with
  | nil =>
      intro st st' h hinv
      simp only [aggRun] at h
      cases h
      refine ⟨?_, hinv⟩
      intro n
      simp
  | cons pr rest ih =>
      intro st st' h hinv
      obtain ⟨pn, dep⟩ := pr
      cases hstep : aggStep si ln tol st pn dep with
      | error e =>
          simp only [aggRun, hstep] at h
          cases h
      | ok st1 =>
          simp only [aggRun, hstep] at h
          obtain ⟨hstepnames, hstepinv⟩ := aggStep_names si ln tol st pn dep st1 hstep hinv
          obtain ⟨hnames, hinv'⟩ := ih st1 st' h hstepinv
          refine ⟨?_, hinv'⟩
          intro n
          rw [hnames n, hstepnames n]
          simp only [List.map_cons, List.mem_cons]
          constructor
          · rintro ((h1 | ⟨hln, rfl⟩) | ⟨hln, h2⟩)
            · exact Or.inl h1
            · exact Or.inr ⟨hln, Or.inl rfl⟩
            · exact Or.inr ⟨hln, Or.inr h2⟩
          · rintro (h1 | ⟨hln, (rfl | h2)⟩)
            · exact Or.inl (Or.inl h1)
            · exact Or.inl (Or.inr ⟨hln, rfl⟩)
            · exact Or.inr ⟨hln, h2⟩

/-- Every event emitted by the aggregation loop is an aggregation event. -/
theorem aggRun_events (si : String → String → Option String) (ln : List String)
    (tol : Bool) (L : List (String × (String × DepConstraints))) :
    ∀ st ev, ev ∈ (aggRun si ln tol L st).1 → Event.isInstall ev = false := by
  induction L with
  | nil =>
      intro st ev h
      simp [aggRun] at h
  | cons pr rest ih =>
      intro st ev h
      obtain ⟨pn, dep⟩ := pr
      cases hstep : aggStep si ln tol st pn dep with
      | error e =>
          simp only [aggRun, hstep] at h
          simp only [List.mem_singleton] at h
          subst h
          rfl
      | ok st1 =>
          simp only [aggRun, hstep, List.mem_cons] at h
          rcases h with rfl | h
          · rfl
          · exact ih st1 ev h

theorem depPairs_dep_names (pkgs : List Package) (n : String) :
    n ∈ (depPairs pkgs).map (fun pr => pr.2.1) ↔
      ∃ p ∈ pkgs, ∃ specs, (n, specs) ∈ p.dependencies := by
  simp only [depPairs, List.map_flatMap, List.mem_flatMap, List.map_map, List.mem_map]
  constructor
  · rintro ⟨p, hp, d, hd, hdn⟩
    exact ⟨p, hp, d.2, by simpa [← hdn] using hd⟩
  · rintro ⟨p, hp, specs, hspecs⟩
    exact ⟨p, hp, (n, specs), hspecs, rfl⟩

/-- C1 counterexample: with target `T` having no third-party dependency and
sibling `S` requiring `X`, the dependency dict the install command passes to
the cached/merged install still contains `X`, which is not among the
target's own direct third-party dependencies. -/
theorem c1_counterexample :
    (install specIntersectModel pkgsC1 "T" false).2 =
      .ok [("X", [DepConstraint.mk ">=1.0" none none none])] ∧
    ¬ "X" ∈ directThirdPartyDeps pkgsC1 "T" := by
  constructor
  · decide
  · decide

/-- C1 amended: the cached/merged install of the target receives the full
aggregated third-party requirement table — independent of which package is
the target — whose names are exactly the non-local dependency names declared
by at least one local package. -/
theorem c1_amended_full_merged_set (si : String → String → Option String)
    (pkgs : List Package) (target target' : String) (tol : Bool) :
    ((install si pkgs target tol).2 = (install si pkgs target' tol).2) ∧
    (∀ st, (aggRun si (pkgs.map Package.name) tol (depPairs pkgs) aggInit).2 = .ok st →
      ((install si pkgs target tol).2 = .ok (mergedDepsArg st) ∧
        ∀ n, n ∈ (mergedDepsArg st).map Prod.fst ↔
          (¬ n ∈ pkgs.map Package.name ∧
            ∃ p ∈ pkgs, ∃ specs, (n, specs) ∈ p.dependencies))) := by
  constructor
  · simp only [install]
    cases h : (aggRun si (pkgs.map Package.name) tol (depPairs pkgs) aggInit).2 <;> simp [h]
  · intro st h
    constructor
    · simp only [install]
      rw [h]
    · intro n
      obtain ⟨hnames, _⟩ := aggRun_names si (pkgs.map Package.name) tol (depPairs pkgs)
        aggInit st h (by simp [aggInit])
      have hproj : (mergedDepsArg st).map Prod.fst = st.thirdparty.map Prod.fst := by
        simp [mergedDepsArg]
      rw [hproj, hnames n]
      simp only [aggInit, List.map_nil, List.not_mem_nil, false_or]
      rw [depPairs_dep_names]

/-- C1 amended witness: the concrete two-package run. -/
theorem c1_amended_full_merged_set_witness :
    (install specIntersectModel pkgsC1 "T" false).2 =
      .ok (mergedDepsArg ⟨[("X", ⟨["S"], [DepConstraint.mk ">=1.0" none none none]⟩)], []⟩) :=
  ((c1_amended_full_merged_set specIntersectModel pkgsC1 "T" "S" false).2
    ⟨[("X", ⟨["S"], [DepConstraint.mk ">=1.0" none none none]⟩)], []⟩ (by decide)).1

/-- C2 counterexample: with conflict tolerance set and packages `A`, `B`
declaring incompatible requirements `>=2.0` / `<1.0` for `X`, the name `X` is
marked invalid, yet the merged dependency dict passed to the cached/merged
install still contains the pre-conflict requirement for `X` — the claim's
"does not include any requirement for it" fails. -/
theorem c2_counterexample :
    (aggRun specIntersectModel (pkgsC2.map Package.name) true (depPairs pkgsC2)
        aggInit).2 =
      .ok ⟨[("X", ⟨["A", "B"], [DepConstraint.mk ">=2.0" none none none]⟩)], ["X"]⟩ ∧
    (install specIntersectModel pkgsC2 "A" true).2 =
      .ok [("X", [DepConstraint.mk ">=2.0" none none none])] := by
  constructor
  · decide
  · decide

/-- C2 amended: with conflict tolerance set, a conflicting dependency is
marked invalid (keeping the last successfully merged specs in the table) and
every later aggregation step for an invalidated name is a no-op, but every
invalidated name still appears in the merged dependency dict passed to the
cached/merged install. -/
theorem c2_amended_invalid_still_merged (si : String → String → Option String)
    (pkgs : List Package) (st : AggState)
    (h : (aggRun si (pkgs.map Package.name) true (depPairs pkgs) aggInit).2 = .ok st) :
    (∀ n ∈ st.invalid, n ∈ (mergedDepsArg st).map Prod.fst) ∧
    (∀ st0 pn dep, dep.1 ∈ st0.invalid →
        aggStep si (pkgs.map Package.name) true st0 pn dep = .ok st0) ∧
    (∀ st0 pn dep entry e,
        ¬ dep.1 ∈ pkgs.map Package.name → ¬ dep.1 ∈ st0.invalid →
        aggLookup st0.thirdparty dep.1 = some entry →
        find_common_specs si entry.specs dep.2 = .error e →
        aggStep si (pkgs.map Package.name) true st0 pn dep =
          .ok ⟨aggUpdate st0.thirdparty dep.1 ⟨setAdd entry.requiredBy pn, entry.specs⟩,
            st0.invalid ++ [dep.1]⟩) := by
  refine ⟨?_, ?_, ?_⟩
  · intro n hn
    obtain ⟨_, hinv⟩ := aggRun_names si (pkgs.map Package.name) true (depPairs pkgs)
      aggInit st h (by simp [aggInit])
    have hproj : (mergedDepsArg st).map Prod.fst = st.thirdparty.map Prod.fst := by
      simp [mergedDepsArg]
    rw [hproj]
    exact hinv n hn
  · intro st0 pn dep hin
    simp [aggStep, hin]
  · intro st0 pn dep entry e hln hinvld hlook herr
    have hskip' : ¬ (dep.1 ∈ pkgs.map Package.name ∨ dep.1 ∈ st0.invalid) := by
      push_neg
      exact ⟨hln, hinvld⟩
    simp only [aggStep, if_neg hskip', hlook, herr]
    simp

/-- C2 amended witness: the concrete conflicting run. -/
theorem c2_amended_invalid_still_merged_witness :
    "X" ∈ (mergedDepsArg
      ⟨[("X", ⟨["A", "B"], [DepConstraint.mk ">=2.0" none none none]⟩)], ["X"]⟩).map
        Prod.fst :=
  (c2_amended_invalid_still_merged specIntersectModel pkgsC2
      ⟨[("X", ⟨["A", "B"], [DepConstraint.mk ">=2.0" none none none]⟩)], ["X"]⟩
      (by decide)).1 "X" (by decide)

/-- C6: within one install invocation, aggregation completes before any
install event: on a fatal (non-tolerated) conflict the emitted trace contains
no install event at all, and on success the trace is an aggregation-only
prefix followed by the target's install followed by only sibling installs. -/
theorem c6_aggregation_before_installs (si : String → String → Option String)
    (pkgs : List Package) (target : String) (tol : Bool) :
    (∀ e, (install si pkgs target tol).2 = .error e →
      ∀ ev ∈ (install si pkgs target tol).1, Event.isInstall ev = false) ∧
    (∀ deps, (install si pkgs target tol).2 = .ok deps →
      ∃ A S, (install si pkgs target tol).1 = A ++ Event.installTarget target :: S ∧
        (∀ ev ∈ A, Event.isInstall ev = false) ∧
        (∀ ev ∈ S, ∃ s, ev = Event.installSibling s)) := by
  constructor
  · intro e he ev hev
    simp only [install] at he hev
    cases hr : (aggRun si (pkgs.map Package.name) tol (depPairs pkgs) aggInit).2 with
    | error e' =>
        rw [hr] at hev
        simp only at hev
        exact aggRun_events si _ tol _ aggInit ev hev
    | ok st =>
        rw [hr] at he
        simp at he
  · intro deps hd
    simp only [install] at hd ⊢
    cases hr : (aggRun si (pkgs.map Package.name) tol (depPairs pkgs) aggInit).2 with
    | error e' =>
        rw [hr] at hd
        simp at hd
    | ok st =>
        dsimp only
        refine ⟨(aggRun si (pkgs.map Package.name) tol (depPairs pkgs) aggInit).1,
          ((pkgs.filter (fun p => p.name ≠ target)).map Package.name).map
            Event.installSibling, ?_, ?_, ?_⟩
        · simp
        · intro ev hev
          exact aggRun_events si _ tol _ aggInit ev hev
        · intro ev hev
          simp only [List.map_map, List.mem_map] at hev
          obtain ⟨p, _, hp⟩ := hev
          exact ⟨p.name, hp.symm⟩

/-- C6 witness: the concrete two-package run for target `T`. -/
theorem c6_aggregation_before_installs_witness :
    ∃ A S, (install specIntersectModel pkgsC1 "T" false).1 =
        A ++ Event.installTarget "T" :: S ∧
      (∀ ev ∈ A, Event.isInstall ev = false) ∧
      (∀ ev ∈ S, ∃ s, ev = Event.installSibling s) :=
  (c6_aggregation_before_installs specIntersectModel pkgsC1 "T" false).2
    [("X", [DepConstraint.mk ">=1.0" none none none])] (by decide)

/-! ### Correctness of the cycle-detection model -/

theorem mem_succsB (g : PkgGraph) (v b : String) :
    b ∈ succsB g v ↔ (v, b) ∈ g.edges := by
  simp only [succsB, List.mem_filterMap]
  constructor
  · rintro ⟨e, he, hfe⟩
    by_cases h : e.1 = v
    · rw [if_pos h] at hfe
      cases hfe
      rwa [← h, Prod.mk.eta]
    · rw [if_neg h] at hfe
      cases hfe
  · intro h
    exact ⟨(v, b), h, by simp⟩

theorem subset_stepSet (g : PkgGraph) (s : Finset String) : s ⊆ stepSet g s :=
  Finset.subset_union_left

theorem stepSet_mono (g : PkgGraph) {s t : Finset String} (h : s ⊆ t) :
    stepSet g s ⊆ stepSet g t :=
  Finset.union_subset_union h (Finset.biUnion_subset_biUnion_of_subset_left _ h)

theorem reachIter_succ (g : PkgGraph) (n : Nat) (s : Finset String) :
    reachIter g (n + 1) s = stepSet g (reachIter g n s) := by
  simp only [reachIter]
  rw [Function.iterate_succ_apply']

theorem reachIter_mono_n (g : PkgGraph) (s : Finset String) {m n : Nat} (h : m ≤ n) :
    reachIter g m s ⊆ reachIter g n s := by
  induction n, h using Nat.le_induction with
  | base => exact fun x hx => hx
  | succ n hmn ih =>
      rw [reachIter_succ]
      exact fun x hx => subset_stepSet g _ (ih hx)

theorem reachIter_sound (g : PkgGraph) (v : String) :
    ∀ n w, w ∈ reachIter g n ((succsB g v).toFinset) →
      Relation.TransGen (EdgeRel g) v w := by
  intro n
  induction n with
  | zero =>
      intro w hw
      simp only [reachIter, Function.iterate_zero, id_eq, List.mem_toFinset] at hw
      exact Relation.TransGen.single ((mem_succsB g v w).mp hw)
  | succ n ih =>
      intro w hw
      rw [reachIter_succ] at hw
      simp only [stepSet, Finset.mem_union, Finset.mem_biUnion] at hw
      rcases hw with hw | ⟨u, hu, hw⟩
      · exact ih w hw
      · simp only [List.mem_toFinset] at hw
        exact Relation.TransGen.tail (ih u hu) ((mem_succsB g u w).mp hw)

theorem reachIter_complete (g : PkgGraph) (v w : String)
    (h : Relation.TransGen (EdgeRel g) v w) :
    ∃ n, w ∈ reachIter g n ((succsB g v).toFinset) := by
  induction h with
  | single hvw =>
      refine ⟨0, ?_⟩
      simp only [reachIter, Function.iterate_zero, id_eq, List.mem_toFinset]
      exact (mem_succsB g v _).mpr hvw
  | tail hvu hedge ih =>
      obtain ⟨n, hn⟩ := ih
      refine ⟨n + 1, ?_⟩
      rw [reachIter_succ]
      simp only [stepSet, Finset.mem_union, Finset.mem_biUnion]
      rename_i u _
      refine Or.inr ⟨u, hn, ?_⟩
      simp only [List.mem_toFinset]
      exact (mem_succsB g u _).mpr hedge

theorem transGen_exists_first {α : Type} (r : α → α → Prop) (a b : α)
    (h : Relation.TransGen r a b) : ∃ c, r a c := by
  induction h using Relation.TransGen.head_induction_on with
  | base hab => exact ⟨_, hab⟩
  | ih hac _ _ => exact ⟨_, hac⟩

theorem succs_subset_univ (g : PkgGraph) (v : String) :
    (succsB g v).toFinset ⊆ gUniv g := by
  intro b hb
  simp only [List.mem_toFinset] at hb
  have := (mem_succsB g v b).mp hb
  simp only [gUniv, Finset.mem_union, List.mem_toFinset]
  exact Or.inr (List.mem_map.mpr ⟨(v, b), this, rfl⟩)

theorem stepSet_subset_univ (g : PkgGraph) {s : Finset String} (h : s ⊆ gUniv g) :
    stepSet g s ⊆ gUniv g := by
  apply Finset.union_subset h
  apply Finset.biUnion_subset.mpr
  intro u _
  exact succs_subset_univ g u

theorem reachIter_subset_univ (g : PkgGraph) {s : Finset String} (h : s ⊆ gUniv g)
    (n : Nat) : reachIter g n s ⊆ gUniv g := by
  induction n with
  | zero => exact h
  | succ n ih =>
      rw [reachIter_succ]
      exact stepSet_subset_univ g ih

theorem reachIter_fix_of_eq (g : PkgGraph) (s : Finset String) {k : Nat}
    (h : reachIter g k s = reachIter g (k + 1) s) :
    ∀ m, k ≤ m → reachIter g m s = reachIter g k s := by
  intro m hm
  induction m, hm using Nat.le_induction with
  | base => rfl
  | succ m hkm ih =>
      rw [reachIter_succ, ih, ← reachIter_succ, ← h]

theorem reachIter_card_grow (g : PkgGraph) (s : Finset String) :
    ∀ k, (∀ j, j < k → reachIter g j s ≠ reachIter g (j + 1) s) →
      k ≤ (reachIter g k s).card := by
  intro k
  induction k with
  | zero => intro _; exact Nat.zero_le _
  | succ k ih =>
      intro h
      have hk : k ≤ (reachIter g k s).card :=
        ih (fun j hj => h j (Nat.lt_succ_of_lt hj))
      have hss : reachIter g k s ⊂ reachIter g (k + 1) s :=
        ⟨reachIter_mono_n g s (Nat.le_succ k), by
          intro hsub
          exact h k (Nat.lt_succ_self k)
            (Finset.Subset.antisymm (reachIter_mono_n g s (Nat.le_succ k)) hsub)⟩
      have := Finset.card_lt_card hss
      omega

theorem reachIter_exists_fix (g : PkgGraph) (s : Finset String) (hs : s ⊆ gUniv g) :
    ∃ k, k ≤ (gUniv g).card ∧ reachIter g k s = reachIter g (k + 1) s := by
  by_contra hcon
  push_neg at hcon
  have hgrow := reachIter_card_grow g s ((gUniv g).card + 1)
    (fun j hj => hcon j (Nat.lt_succ_iff.mp hj))
  have hle : (reachIter g ((gUniv g).card + 1) s).card ≤ (gUniv g).card :=
    Finset.card_le_card (reachIter_subset_univ g hs _)
  omega

theorem reachIter_le_bound (g : PkgGraph) (s : Finset String) (hs : s ⊆ gUniv g)
    (n : Nat) : reachIter g n s ⊆ reachIter g (gUniv g).card s := by
  obtain ⟨k, hk, hfix⟩ := reachIter_exists_fix g s hs
  by_cases hn : n ≤ (gUniv g).card
  · exact reachIter_mono_n g s hn
  · push_neg at hn
    have h1 : reachIter g n s = reachIter g k s :=
      reachIter_fix_of_eq g s hfix n (by omega)
    rw [h1]
    exact reachIter_mono_n g s hk

theorem cycleAtB_iff (g : PkgGraph) (v : String) :
    cycleAtB g v = true ↔ Relation.TransGen (EdgeRel g) v v := by
  simp only [cycleAtB, decide_eq_true_eq]
  constructor
  · exact reachIter_sound g v _ v
  · intro h
    obtain ⟨n, hn⟩ := reachIter_complete g v v h
    exact reachIter_le_bound g _ (succs_subset_univ g v) n hn

theorem hasCycleB_iff (g : PkgGraph) :
    hasCycleB g = true ↔ ∃ v, Relation.TransGen (EdgeRel g) v v := by
  simp only [hasCycleB, List.any_eq_true]
  constructor
  · rintro ⟨v, _, hv⟩
    exact ⟨v, (cycleAtB_iff g v).mp hv⟩
  · rintro ⟨v, hv⟩
    refine ⟨v, ?_, (cycleAtB_iff g v).mpr hv⟩
    obtain ⟨c, hvc⟩ := transGen_exists_first (EdgeRel g) v v hv
    exact List.mem_map.mpr ⟨(v, c), hvc, rfl⟩

theorem addDep_edges (g : PkgGraph) (pkgName : String) (dep : String × DepConstraints) :
    (addDep g pkgName dep).edges = g.edges ++ [(pkgName, dep.1)] := by
  simp only [addDep]
  cases nodeLookup g.nodes dep.1 with
  | none => rfl
  | some node => cases node <;> rfl

theorem buildGraph_edges (pkgs : List Package) :
    (buildGraph pkgs).edges =
      pkgs.flatMap (fun p => p.dependencies.map (fun d => (p.name, d.1))) := by
  have hinner : ∀ (deps : List (String × DepConstraints)) (n : String) (g : PkgGraph),
      (deps.foldl (fun g' d => addDep g' n d) g).edges =
        g.edges ++ deps.map (fun d => (n, d.1)) := by
    intro deps n
    induction deps with
    | nil => intro g; simp
    | cons d rest ih =>
        intro g
        simp only [List.foldl_cons, List.map_cons]
        rw [ih, addDep_edges]
        simp
  have houter : ∀ (ps : List Package) (g : PkgGraph),
      (ps.foldl (fun g p => p.dependencies.foldl (fun g' d => addDep g' p.name d) g) g).edges =
        g.edges ++ ps.flatMap (fun p => p.dependencies.map (fun d => (p.name, d.1))) := by
    intro ps
    induction ps with
    | nil => intro g; simp
    | cons p rest ih =>
        intro g
        simp only [List.foldl_cons, List.flatMap_cons]
        rw [ih, hinner]
        simp
  simp only [buildGraph]
  rw [houter]
  simp

theorem edgeRel_iff_declared (pkgs : List Package) (a b : String) :
    EdgeRel (buildGraph pkgs) a b ↔ DeclaredDep pkgs a b := by
  simp only [EdgeRel, buildGraph_edges, List.mem_flatMap, List.mem_map, DeclaredDep]
  constructor
  · rintro ⟨p, hp, d, hd, hab⟩
    cases hab
    exact ⟨p, hp, rfl, d.2, by simpa using hd⟩
  · rintro ⟨p, hp, rfl, specs, hspecs⟩
    exact ⟨p, hp, (b, specs), hspecs, rfl⟩

/-- C5: `PkgGraph.from_pkgs` fails with the cyclic-dependency error exactly
when the declared dependency relation over the workspace admits a directed
cycle (of any length, including self-dependency), and returns a constructed
graph exactly when it is acyclic. -/
theorem c5_from_pkgs_cycle (pkgs : List Package) :
    ((∃ e, from_pkgs pkgs = .error e) ↔
      ∃ v, Relation.TransGen (DeclaredDep pkgs) v v) ∧
    ((∃ g, from_pkgs pkgs = .ok g) ↔
      ¬ ∃ v, Relation.TransGen (DeclaredDep pkgs) v v) := by
  have hcong : (∃ v, Relation.TransGen (EdgeRel (buildGraph pkgs)) v v) ↔
      ∃ v, Relation.TransGen (DeclaredDep pkgs) v v := by
    constructor
    · rintro ⟨v, hv⟩
      exact ⟨v, Relation.TransGen.mono (fun a b => (edgeRel_iff_declared pkgs a b).mp) hv⟩
    · rintro ⟨v, hv⟩
      exact ⟨v, Relation.TransGen.mono (fun a b => (edgeRel_iff_declared pkgs a b).mpr) hv⟩
  cases hcyc : hasCycleB (buildGraph pkgs) with
  | true =>
      have hc := hcong.mp ((hasCycleB_iff (buildGraph pkgs)).mp hcyc)
      constructor
      · simp only [from_pkgs, hcyc, if_true]
        exact ⟨fun _ => hc, fun _ => ⟨"Found cyclic dependencies", rfl⟩⟩
      · simp only [from_pkgs, hcyc, if_true]
        constructor
        · rintro ⟨g, hg⟩
          cases hg
        · intro hnc
          exact absurd hc hnc
  | false =>
      have hnc : ¬ ∃ v, Relation.TransGen (DeclaredDep pkgs) v v := by
        intro hc
        have := (hasCycleB_iff (buildGraph pkgs)).mpr (hcong.mpr hc)
        rw [hcyc] at this
        cases this
      constructor
      · simp only [from_pkgs, hcyc, if_false]
        constructor
        · rintro ⟨e, he⟩
          cases he
        · intro hc
          exact absurd hc hnc
      · simp only [from_pkgs, hcyc, if_false]
        exact ⟨fun _ => hnc, fun _ => ⟨buildGraph pkgs, rfl⟩⟩

/-! ### Correctness of the depth-first traversal -/

/-- Every traversed node is fresh (not previously visited) and a graph node. -/
theorem dfsAux_fresh (g : PkgGraph) :
    ∀ vs visited, ∀ x ∈ dfsAux g vs visited, ¬ x ∈ visited ∧ x ∈ nodeNames g := by
  intro vs visited
  induction vs, visited using dfsAux.induct g with
  | case1 visited =>
      intro x hx
      rw [dfsAux] at hx
      simp at hx
  | case2 visited v rest h ih =>
      intro x hx
      rw [dfsAux, dif_pos h] at hx
      exact ih x hx
  | case3 visited v rest h out1 ih1 ih2 =>
      intro x hx
      push_neg at h
      rw [dfsAux, dif_neg (by push_neg; exact h)] at hx
      simp only [List.mem_cons, List.mem_append] at hx
      rcases hx with rfl | hx | hx
      · exact ⟨h.1, h.2⟩
      · obtain ⟨hnv, hn⟩ := ih1 x hx
        simp only [List.mem_cons] at hnv
        push_neg at hnv
        exact ⟨hnv.2, hn⟩
      · obtain ⟨hnv, hn⟩ := ih2 x hx
        simp only [List.mem_append, List.mem_cons] at hnv
        push_neg at hnv
        exact ⟨hnv.2.2, hn⟩

/-- Every traversed node is reachable from some pending node. -/
theorem dfsAux_sound (g : PkgGraph) :
    ∀ vs visited, ∀ x ∈ dfsAux g vs visited,
      ∃ v ∈ vs, Relation.ReflTransGen (EdgeRel g) v x := by
  intro vs visited
  induction vs, visited using dfsAux.induct g with
  | case1 visited =>
      intro x hx
      rw [dfsAux] at hx
      simp at hx
  | case2 visited v rest h ih =>
      intro x hx
      rw [dfsAux, dif_pos h] at hx
      obtain ⟨u, hu, hr⟩ := ih x hx
      exact ⟨u, List.mem_cons_of_mem v hu, hr⟩
  | case3 visited v rest h out1 ih1 ih2 =>
      intro x hx
      rw [dfsAux, dif_neg h] at hx
      simp only [List.mem_cons, List.mem_append] at hx
      rcases hx with rfl | hx | hx
      · exact ⟨x, List.mem_cons_self x rest, Relation.ReflTransGen.refl⟩
      · obtain ⟨u, hu, hr⟩ := ih1 x hx
        refine ⟨v, List.mem_cons_self v rest, ?_⟩
        exact Relation.ReflTransGen.head ((mem_succsB g v u).mp hu) hr
      · obtain ⟨u, hu, hr⟩ := ih2 x hx
        exact ⟨u, List.mem_cons_of_mem v hu, hr⟩

/-- Every pending graph node ends up traversed or already visited. -/
theorem dfsAux_covers (g : PkgGraph) :
    ∀ vs visited, ∀ v ∈ vs, v ∈ nodeNames g →
      v ∈ dfsAux g vs visited ∨ v ∈ visited := by
  intro vs visited
  induction vs, visited using dfsAux.induct g with
  | case1 visited =>
      intro v hv _
      simp at hv
  | case2 visited v rest h ih =>
      intro u hu hun
      rw [dfsAux, dif_pos h]
      rcases List.mem_cons.mp hu with rfl | hu'
      · rcases h with h1 | h1
        · exact Or.inr h1
        · exact absurd hun h1
      · exact ih u hu' hun
  | case3 visited v rest h out1 ih1 ih2 =>
      intro u hu hun
      rw [dfsAux, dif_neg h]
      simp only [List.mem_cons, List.mem_append]
      rcases List.mem_cons.mp hu with rfl | hu'
      · exact Or.inl (Or.inl rfl)
      · rcases ih2 u hu' hun with h2 | h2
        · exact Or.inl (Or.inr (Or.inr h2))
        · simp only [List.mem_append, List.mem_cons] at h2
          rcases h2 with h2 | h2 | h2
          · exact Or.inl (Or.inr (Or.inl h2))
          · exact Or.inl (Or.inl h2)
          · exact Or.inr h2

/-- The traversed set is closed under edges into graph nodes, relative to the
initially visited list. -/
theorem dfsAux_closed (g : PkgGraph) :
    ∀ vs visited, ∀ x ∈ dfsAux g vs visited, ∀ y, EdgeRel g x y →
      y ∈ nodeNames g → y ∈ dfsAux g vs visited ∨ y ∈ visited := by
  intro vs visited
  induction vs, visited using dfsAux.induct g with
  | case1 visited =>
      intro x hx
      rw [dfsAux] at hx
      simp at hx
  | case2 visited v rest h ih =>
      intro x hx y hxy hyn
      rw [dfsAux, dif_pos h] at hx ⊢
      exact ih x hx y hxy hyn
  | case3 visited v rest h out1 ih1 ih2 =>
      intro x hx y hxy hyn
      rw [dfsAux, dif_neg h] at hx ⊢
      simp only [List.mem_cons, List.mem_append] at hx ⊢
      rcases hx with rfl | hx | hx
      · -- x = v: its successors were all pushed in the first recursive call
        have hy : y ∈ succsB g x := (mem_succsB g x y).mpr hxy
        rcases dfsAux_covers g (succsB g x) (x :: visited) y hy hyn with h2 | h2
        · exact Or.inl (Or.inr (Or.inl h2))
        · rcases List.mem_cons.mp h2 with rfl | h2'
          · exact Or.inl (Or.inl rfl)
          · exact Or.inr h2'
      · rcases ih1 x hx y hxy hyn with h2 | h2
        · exact Or.inl (Or.inr (Or.inl h2))
        · rcases List.mem_cons.mp h2 with rfl | h2'
          · exact Or.inl (Or.inl rfl)
          · exact Or.inr h2'
      · rcases ih2 x hx y hxy hyn with h2 | h2
        · exact Or.inl (Or.inr (Or.inr h2))
        · simp only [List.mem_append, List.mem_cons] at h2
          rcases h2 with h2 | h2 | h2
          · exact Or.inl (Or.inr (Or.inl h2))
          · exact Or.inl (Or.inl h2)
          · exact Or.inr h2

theorem nodeUpdate_keys (m : List (String × PkgNode)) (k : String) (v : PkgNode) :
    (nodeUpdate m k v).map Prod.fst = m.map Prod.fst := by
  induction m with
  | nil => rfl
  | cons p rest ih =>
      obtain ⟨k0, v0⟩ := p
      by_cases h : k0 = k
      · subst h
        simp [nodeUpdate]
      · simp only [nodeUpdate, if_neg h, List.map_cons]
        rw [ih]

theorem nodeLookup_mem (m : List (String × PkgNode)) (k : String) (e : PkgNode)
    (h : nodeLookup m k = some e) : k ∈ m.map Prod.fst := by
  induction m with
  | nil => simp [nodeLookup] at h
  | cons p rest ih =>
      obtain ⟨k0, v0⟩ := p
      by_cases h0 : k0 = k
      · subst h0
        simp
      · simp only [nodeLookup, if_neg h0] at h
        simp only [List.map_cons, List.mem_cons]
        exact Or.inr (ih h)

theorem addDep_nodes_grow (g : PkgGraph) (n : String) (dep : String × DepConstraints) :
    (∀ x ∈ nodeNames g, x ∈ nodeNames (addDep g n dep)) ∧
      dep.1 ∈ nodeNames (addDep g n dep) := by
  simp only [addDep, nodeNames]
  cases hlook : nodeLookup g.nodes dep.1 with
  | none =>
      constructor
      · intro x hx
        simp only [List.map_append, List.mem_append]
        exact Or.inl hx
      · simp
  | some node =>
      cases node with
      | pkg p =>
          exact ⟨fun x hx => hx, nodeLookup_mem _ _ _ hlook⟩
      | third t =>
          constructor
          · intro x hx
            simpa [nodeUpdate_keys] using hx
          · simpa [nodeUpdate_keys] using nodeLookup_mem _ _ _ hlook

/-- Every edge target of a constructed graph is a node of the graph. -/
theorem buildGraph_target_mem (pkgs : List Package) :
    ∀ e ∈ (buildGraph pkgs).edges, e.2 ∈ nodeNames (buildGraph pkgs) := by
  have hstep : ∀ (g : PkgGraph) (n : String) (dep : String × DepConstraints),
      (∀ e ∈ g.edges, e.2 ∈ nodeNames g) →
      ∀ e ∈ (addDep g n dep).edges, e.2 ∈ nodeNames (addDep g n dep) := by
    intro g n dep hP e he
    rw [addDep_edges] at he
    rcases List.mem_append.mp he with he | he
    · exact (addDep_nodes_grow g n dep).1 _ (hP e he)
    · simp only [List.mem_singleton] at he
      subst he
      exact (addDep_nodes_grow g n dep).2
  have hinner : ∀ (deps : List (String × DepConstraints)) (n : String) (g : PkgGraph),
      (∀ e ∈ g.edges, e.2 ∈ nodeNames g) →
      ∀ e ∈ (deps.foldl (fun g' d => addDep g' n d) g).edges,
        e.2 ∈ nodeNames (deps.foldl (fun g' d => addDep g' n d) g) := by
    intro deps n
    induction deps with
    | nil => intro g hP; exact hP
    | cons d rest ih =>
        intro g hP
        simp only [List.foldl_cons]
        exact ih (addDep g n d) (hstep g n d hP)
  have houter : ∀ (ps : List Package) (g : PkgGraph),
      (∀ e ∈ g.edges, e.2 ∈ nodeNames g) →
      ∀ e ∈ (ps.foldl
          (fun g p => p.dependencies.foldl (fun g' d => addDep g' p.name d) g) g).edges,
        e.2 ∈ nodeNames (ps.foldl
          (fun g p => p.dependencies.foldl (fun g' d => addDep g' p.name d) g) g) := by
    intro ps
    induction ps with
    | nil => intro g hP; exact hP
    | cons p rest ih =>
        intro g hP
        simp only [List.foldl_cons]
        exact ih _ (hinner p.dependencies p.name g hP)
  intro e he
  simp only [buildGraph] at he ⊢
  exact houter pkgs _ (by simp) e he

/-- C8: for a node `p` of a constructed graph, `dependencies` traverses in
depth-first pre-order exactly the nodes reachable from `p` along dependency
edges, excluding `p` itself; `third_party_dependencies` and
`local_dependencies` are its third-party and local restrictions, and every
traversed node lies in exactly one of the two. -/
theorem c8_dependencies (pkgs : List Package) (g : PkgGraph) (p : String)
    (hg : from_pkgs pkgs = .ok g) (hp : p ∈ nodeNames g) :
    (∀ x, x ∈ dependenciesNames g p ↔
      (x ≠ p ∧ Relation.TransGen (EdgeRel g) p x)) ∧
    third_party_dependencies g p = (dependencies g p).filter PkgNode.isThird ∧
    local_dependencies g p = (dependencies g p).filter PkgNode.isLocal ∧
    (∀ nd ∈ dependencies g p,
      nd ∈ third_party_dependencies g p ↔ ¬ nd ∈ local_dependencies g p) := by
  have hgeq : g = buildGraph pkgs := by
    simp only [from_pkgs] at hg
    cases hcyc : hasCycleB (buildGraph pkgs) with
    | true =>
        rw [hcyc] at hg
        simp at hg
    | false =>
        rw [hcyc] at hg
        simp only [if_false, Bool.false_eq_true] at hg
        exact (Except.ok.inj hg).symm
  have htarget : ∀ a b, EdgeRel g a b → b ∈ nodeNames g := by
    intro a b hab
    subst hgeq
    exact buildGraph_target_mem pkgs (a, b) hab
  refine ⟨?_, rfl, rfl, ?_⟩
  · intro x
    constructor
    · intro hx
      obtain ⟨hfresh, _⟩ := dfsAux_fresh g (succsB g p) [p] x hx
      simp only [List.mem_singleton] at hfresh
      obtain ⟨u, hu, hru⟩ := dfsAux_sound g (succsB g p) [p] x hx
      exact ⟨hfresh, Relation.TransGen.head' ((mem_succsB g p u).mp hu) hru⟩
    · rintro ⟨hne, htg⟩
      obtain ⟨u, hpu, hux⟩ := Relation.TransGen.head'_iff.mp htg
      have haux : ∀ z, Relation.ReflTransGen (EdgeRel g) u z →
          z ∈ dependenciesNames g p ∨ z = p := by
        intro z hz
        induction hz with
        | refl =>
            rcases dfsAux_covers g (succsB g p) [p] u
                ((mem_succsB g p u).mpr hpu) (htarget p u hpu) with h2 | h2
            · exact Or.inl h2
            · exact Or.inr (List.mem_singleton.mp h2)
        | @tail zmid znext hz' hedge ih =>
            rcases ih with h2 | h2
            · rcases dfsAux_closed g (succsB g p) [p] zmid h2 znext hedge
                  (htarget zmid znext hedge) with h3 | h3
              · exact Or.inl h3
              · exact Or.inr (List.mem_singleton.mp h3)
            · rw [h2] at hedge
              rcases dfsAux_covers g (succsB g p) [p] znext
                  ((mem_succsB g p znext).mpr hedge) (htarget p znext hedge) with h3 | h3
              · exact Or.inl h3
              · exact Or.inr (List.mem_singleton.mp h3)
      rcases haux x hux with h2 | h2
      · exact h2
      · exact absurd h2 hne
  · intro nd hnd
    simp only [third_party_dependencies, local_dependencies, List.mem_filter]
    cases hnd2 : nd with
    | pkg q => simp [PkgNode.isThird, PkgNode.isLocal, hnd, ← hnd2]
    | third t => simp [PkgNode.isThird, PkgNode.isLocal, hnd, ← hnd2]

/-- C8 witness: in the spec's example workspace the traversal from `A`
contains `B` and `X` but not `A` itself. -/
theorem c8_dependencies_witness :
    "X" ∈ dependenciesNames (buildGraph pkgsC8) "A" ∧
    "B" ∈ dependenciesNames (buildGraph pkgsC8) "A" ∧
    ¬ "A" ∈ dependenciesNames (buildGraph pkgsC8) "A" := by
  have hok : from_pkgs pkgsC8 = .ok (buildGraph pkgsC8) := by decide
  have h := c8_dependencies pkgsC8 (buildGraph pkgsC8) "A" hok (by decide)
  refine ⟨?_, ?_, ?_⟩
  · exact (h.1 "X").mpr ⟨by decide, Relation.TransGen.single (by decide)⟩
  · exact (h.1 "B").mpr ⟨by decide, Relation.TransGen.single (by decide)⟩
  · intro hmem
    exact ((h.1 "A").mp hmem).1 rfl

end SBT
